import Mathlib

/-!
Verification of the ChatHype repository's CSV marker importers and of the
spec's highlight pipeline contracts.

The repository ships two editor-side importer scripts:
* `premierimport.jsx` — the header-aware, column-based importer (Premiere Pro),
* the After Effects script (`src/unnamed/part_000`) — the simple-format importer.

Both are modelled here as pure functions over lines of characters.  JavaScript
numbers are modelled by `ChatHype.JSNum` (NaN / signed infinity / a rational),
and the relevant pieces of `parseFloat` / `parseInt` semantics are embedded
directly.  The core pipeline (highlight detector, CSV interchange) has no code
under `src/`; those parts are modelled from the spec and marked as such.
-/

namespace ChatHype

/-- JavaScript whitespace characters (the ones relevant to the inputs at hand). -/
def isWS (c : Char) : Bool :=
  c = ' ' || c = '\t' || c = '\n' || c = '\r'

/-- Numeric value of a digit character. -/
def digitVal (c : Char) : ℕ := c.toNat - 48

/-- The decimal digit character for `m` (characters `'0'`–`'9'`; values ≥ 10
collapse to `'9'`, which never happens at call sites since we always pass `m % 10`). -/
def digitChar (m : ℕ) : Char :=
  ['0', '1', '2', '3', '4', '5', '6', '7', '8', '9'].getD m '9'

/-- Evaluate a most-significant-first digit string. -/
def evalDigits (l : List Char) : ℕ :=
  l.foldl (fun a c => 10 * a + digitVal c) 0

/-- Take the longest digit prefix, returning (digits, rest). -/
def takeDigits : List Char → List Char × List Char
  | [] => ([], [])
  | c :: cs =>
    if c.isDigit then
      let p := takeDigits cs
      (c :: p.1, p.2)
    else ([], c :: cs)

/-- Split on a separator character: first cell and remaining cells. -/
def splitCharAux (sep : Char) : List Char → List Char × List (List Char)
  | [] => ([], [])
  | c :: r =>
    let p := splitCharAux sep r
    if c = sep then ([], p.1 :: p.2) else (c :: p.1, p.2)

/-- `String.prototype.split(sep)`: the list of cells of `l` separated by `sep`.
Always nonempty, matching JavaScript (`"".split(",") = [""]`). -/
def splitChar (sep : Char) (l : List Char) : List (List Char) :=
  (splitCharAux sep l).1 :: (splitCharAux sep l).2

/-- Join cells with a separator character (inverse of `splitChar` for
separator-free cells). -/
def joinChar (sep : Char) : List (List Char) → List Char
  | [] => []
  | [c] => c
  | c :: cs => c ++ sep :: joinChar sep cs

/-- Does `hay` start with `needle`? -/
def hasPrefix : List Char → List Char → Bool
  | [], _ => true
  | _ :: _, [] => false
  | a :: as, b :: bs => a = b && hasPrefix as bs

/-- `String.prototype.includes`: does `hay` contain `needle` as a contiguous
substring? -/
def containsSub (needle : List Char) : List Char → Bool
  | [] => hasPrefix needle []
  | c :: t => hasPrefix needle (c :: t) || containsSub needle t

/-- `line.replace(/^\s+|\s+$/g, "")`: strip leading and trailing whitespace. -/
def trimChars (l : List Char) : List Char :=
  ((l.dropWhile isWS).reverse.dropWhile isWS).reverse

/-- Decimal digits of `n`, most significant first, via explicit fuel
(`fuel ≥ n` suffices); `[]` for `n = 0`. -/
def natDigits : ℕ → ℕ → List Char
  | 0, _ => []
  | f + 1, n => if n = 0 then [] else natDigits f (n / 10) ++ [digitChar (n % 10)]

/-- Decimal rendering of a natural number (`"0"` for zero). -/
def natStr (n : ℕ) : List Char :=
  if n = 0 then ['0'] else natDigits n n

/-! ### JavaScript number model and `parseInt` / `parseFloat` -/

/-- A JavaScript number as produced by `parseFloat` / `parseInt` and the
arithmetic in the importer scripts: NaN, a signed infinity, or a finite value
(modelled as a rational, which binary double values embed into exactly). -/
inductive JSNum where
  | nan : JSNum
  | inf : Bool → JSNum
  | num : ℚ → JSNum
deriving DecidableEq

/-- `isNaN(x)`. -/
def JSNum.isNaN : JSNum → Bool
  | .nan => true
  | _ => false

/-- Consume an optional leading sign; returns (isNegative, rest). -/
def parseSign : List Char → Bool × List Char
  | [] => (false, [])
  | c :: r => if c = '-' then (true, r) else if c = '+' then (false, r) else (false, c :: r)

/-- `parseInt(s)` (decimal): skip leading whitespace, optional sign, then the
longest digit prefix; NaN (`none`) if no digits.  The `0x` hex-prefix form of
`parseInt` is not modelled; no input in any claim contains it. -/
def jsParseInt (l : List Char) : Option ℤ :=
  let l1 := l.dropWhile isWS
  let s := parseSign l1
  let d := takeDigits s.2
  if d.1 = [] then none
  else some (if s.1 then -(evalDigits d.1 : ℤ) else (evalDigits d.1 : ℤ))

/-- Mantissa of a decimal literal: `digits [. digits]` or `. digits`; returns
the value and the unconsumed rest, or `none` when no digit was found. -/
def parseMantissa (l : List Char) : Option (ℚ × List Char) :=
  let ip := takeDigits l
  match ip.2 with
  | '.' :: r2 =>
    let fp := takeDigits r2
    if ip.1 = [] ∧ fp.1 = [] then none
    else some ((evalDigits ip.1 : ℚ) + (evalDigits fp.1 : ℚ) / 10 ^ fp.1.length, fp.2)
  | _ => if ip.1 = [] then none else some ((evalDigits ip.1 : ℚ), ip.2)

/-- Optional exponent part `e[+-]digits`; unconsumed if no digits follow the `e`. -/
def parseExponent (l : List Char) : ℤ :=
  match l with
  | c :: r =>
    if c = 'e' ∨ c = 'E' then
      let s := parseSign r
      let d := takeDigits s.2
      if d.1 = [] then 0
      else if s.1 then -(evalDigits d.1 : ℤ) else (evalDigits d.1 : ℤ)
    else 0
  | [] => 0

/-- `parseFloat(s)`: skip leading whitespace, optional sign, then `Infinity`
or the longest decimal-literal prefix (mantissa and optional exponent);
NaN if no prefix parses. -/
def jsParseFloat (l : List Char) : JSNum :=
  let l1 := l.dropWhile isWS
  let s := parseSign l1
  if hasPrefix ('I' :: 'n' :: 'f' :: 'i' :: 'n' :: 'i' :: 't' :: 'y' :: []) s.2 then
    .inf s.1
  else
    match parseMantissa s.2 with
    | none => .nan
    | some (m, r) =>
      .num ((if s.1 then -m else m) * 10 ^ parseExponent r)

/-! ### The header-aware (column-based) importer — `src/premierimport.jsx` -/

/-- `timestampToSeconds` from `premierimport.jsx`: split on `":"`, `parseInt`
the first three fields, combine as `h*3600 + m*60 + s`.  A missing field is
`undefined`, whose `parseInt` is NaN; NaN propagates through the arithmetic. -/
def timestampToSeconds (ts : List Char) : JSNum :=
  let parts := splitChar ':' ts
  match (parts.get? 0).bind jsParseInt, (parts.get? 1).bind jsParseInt,
      (parts.get? 2).bind jsParseInt with
  | some h, some m, some s => .num ((h * 3600 + m * 60 + s : ℤ) : ℚ)
  | _, _, _ => .nan

/-- The loop body of `premierimport.jsx` for one line: trim, skip if empty,
split on commas, require at least 5 columns, convert the fifth column and add
a marker unless the conversion is NaN.  Returns the marker time, or `none`
when the line contributes no marker. -/
def premierProcessLine (line : List Char) : Option JSNum :=
  let t := trimChars line
  if t = [] then none
  else
    let columns := splitChar ',' t
    if columns.length < 5 then none
    else
      let seconds := timestampToSeconds (columns.getD 4 [])
      if seconds.isNaN then none else some seconds

/-- The `while (!file.eof)` loop of `premierimport.jsx`, accumulating markers
in order. -/
def premierLoop (acc : List JSNum) : List (List Char) → List JSNum
  | [] => acc
  | line :: rest =>
    match premierProcessLine line with
    | none => premierLoop acc rest
    | some v => premierLoop (acc ++ [v]) rest

/-- The header string tested by `header.includes("Start Time")`. -/
def startTimeHdr : List Char := ("Start Time" : String).data

/-- Whole-file behavior of `premierimport.jsx`, faithful to the source: the
first line is always read into `header` before the loop (and so is never
processed by the loop); when it contains `"Start Time"`, a second line is read
into `header` (and is likewise never processed). -/
def premierImport (lines : List (List Char)) : List JSNum :=
  match lines with
  | [] => []
  | first :: rest =>
    if containsSub startTimeHdr first then premierLoop [] rest.tail
    else premierLoop [] rest

/-- `premierimport.jsx` outcome: the markers plus the alert shown after the
loop (the script has no failure path once a file and sequence are selected —
it always alerts success). -/
def premierRun (lines : List (List Char)) : List JSNum × List Char :=
  (premierImport lines, ("Markers added to the sequence." : String).data)

/-! ### The simple-format importer — the After Effects script -/

/-- The loop body of the After Effects script for one line: trim, skip if
empty, `parseFloat` the whole line, add a marker unless NaN. -/
def aeProcessLine (line : List Char) : Option JSNum :=
  let t := trimChars line
  if t = [] then none
  else
    let seconds := jsParseFloat t
    if seconds.isNaN then none else some seconds

/-- The `while (!file.eof)` loop of the After Effects script. -/
def aeLoop (acc : List JSNum) : List (List Char) → List JSNum
  | [] => acc
  | line :: rest =>
    match aeProcessLine line with
    | none => aeLoop acc rest
    | some v => aeLoop (acc ++ [v]) rest

/-- Whole-file behavior of the After Effects script: every line is processed
by the loop. -/
def aeImport (lines : List (List Char)) : List JSNum := aeLoop [] lines

/-- After Effects script outcome: markers plus the unconditional success alert. -/
def aeRun (lines : List (List Char)) : List JSNum × List Char :=
  (aeImport lines, ("Markers added to the composition." : String).data)

/-- A line qualifies for the simple-format importer iff it is non-empty after
trimming and its trimmed text parses to a number (`parseFloat` not NaN). -/
def aeQualifies (line : List Char) : Bool :=
  !(trimChars line).isEmpty && !(jsParseFloat (trimChars line)).isNaN

/-- The function of the fifth comma-separated column that the column-based
importer's per-row marker factors through (`none` when the row has no fifth
column). -/
def fifthColumnMarker (c5 : Option (List Char)) : Option JSNum :=
  match c5 with
  | none => none
  | some cell =>
    let seconds := timestampToSeconds cell
    if seconds.isNaN then none else some seconds

/-! ### The Highlight Detector — modelled from the spec (no code under src/) -/

/-- Modelled from the spec: one fixed-width activity window (§3 ActivityBucket;
the builder code is not in src/).  Only the fields the detector consumes are
modelled. -/
structure Bucket where
  startTime : ℚ
  weightedScore : ℚ
deriving DecidableEq

/-- Modelled from the spec: the kind of a detected Highlight (§3). -/
inductive HKind where
  | peak : HKind
  | valley : HKind
deriving DecidableEq

/-- Modelled from the spec: one detected moment of interest (§3 Highlight);
`timestamp` is the representative bucket's `startTime` (the spec leaves
start-vs-midpoint open; start is chosen and held constant). -/
structure Highlight where
  timestamp : ℚ
  score : ℚ
  kind : HKind
deriving DecidableEq

/-- Modelled from the spec: the detector's configuration surface (§3, §6). -/
structure DetectorConfig where
  peakThreshold : ℚ
  valleyThreshold : ℚ
  minSeparationSeconds : ℚ
deriving DecidableEq

/-- Modelled from the spec (§4.3 step 1): peak iff `weightedScore ≥ peakThreshold`. -/
def isPeakBucket (cfg : DetectorConfig) (b : Bucket) : Bool :=
  cfg.peakThreshold ≤ b.weightedScore

/-- Modelled from the spec (§4.3 step 1): valley iff `weightedScore ≤
valleyThreshold`, with peak classification taking priority (a bucket cannot be
both). -/
def isValleyBucket (cfg : DetectorConfig) (b : Bucket) : Bool :=
  b.weightedScore ≤ cfg.valleyThreshold && !(isPeakBucket cfg b)

/-- Modelled from the spec (§4.3 step 2): reduce each maximal run of
consecutive `p`-qualifying buckets to a single representative — the bucket with
the extremal score in the run, the earliest winning ties.  The optional state
is the current run's representative so far; `better c b = true` means the later
bucket `b` strictly beats the earlier representative `c`. -/
def runReduce (p : Bucket → Bool) (better : Bucket → Bucket → Bool) :
    Option Bucket → List Bucket → List Bucket
  | none, [] => []
  | some c, [] => [c]
  | none, b :: bs =>
    if p b then runReduce p better (some b) bs else runReduce p better none bs
  | some c, b :: bs =>
    if p b then runReduce p better (some (if better c b then b else c)) bs
    else c :: runReduce p better none bs

/-- Modelled from the spec (§3, §4.3): the Highlight representing a bucket. -/
def mkHighlight (k : HKind) (b : Bucket) : Highlight := ⟨b.startTime, b.weightedScore, k⟩

/-- Modelled from the spec (§4.3 step 3): the merge pass — while two Highlights
of the same kind are closer together than `d`, merge them into one, keeping the
more extremal of the two (`better`, earliest on ties), until no violating pair
remains.  Fuel-recursive; fuel ≥ length always suffices. -/
def mergeClose (d : ℚ) (better : Highlight → Highlight → Bool) :
    ℕ → List Highlight → List Highlight
  | 0, l => l
  | _ + 1, [] => []
  | _ + 1, [h] => [h]
  | f + 1, h1 :: h2 :: rest =>
    if h2.timestamp - h1.timestamp < d then
      mergeClose d better f ((if better h1 h2 then h2 else h1) :: rest)
    else h1 :: mergeClose d better f (h2 :: rest)

/-- Modelled from the spec (§4.3): a later peak bucket beats the running one
iff its score is strictly greater (maximum, earliest on ties). -/
def betterPeakB (c b : Bucket) : Bool := c.weightedScore < b.weightedScore

/-- Modelled from the spec (§4.3): a later valley bucket beats the running one
iff its score is strictly smaller (minimum, earliest on ties). -/
def betterValleyB (c b : Bucket) : Bool := b.weightedScore < c.weightedScore

/-- Modelled from the spec (§4.3 step 3): merge preference on peak Highlights. -/
def betterPeakH (c b : Highlight) : Bool := c.score < b.score

/-- Modelled from the spec (§4.3 step 3): merge preference on valley Highlights. -/
def betterValleyH (c b : Highlight) : Bool := b.score < c.score

/-- Modelled from the spec (§4.3 step 4): sort the final set by timestamp
ascending, realized as a linear merge of the two timestamp-sorted class lists.
Fuel-recursive; fuel ≥ sum of lengths always suffices. -/
def mergeByTime : ℕ → List Highlight → List Highlight → List Highlight
  | 0, l1, l2 => l1 ++ l2
  | _ + 1, [], l2 => l2
  | _ + 1, l1, [] => l1
  | f + 1, a :: as, b :: bs =>
    if a.timestamp ≤ b.timestamp then a :: mergeByTime f as (b :: bs)
    else b :: mergeByTime f (a :: as) bs

/-- Modelled from the spec (§4.3 steps 1-2): the run-reduced peak Highlights. -/
def peakHighlights (cfg : DetectorConfig) (buckets : List Bucket) : List Highlight :=
  (runReduce (isPeakBucket cfg) betterPeakB none buckets).map (mkHighlight .peak)

/-- Modelled from the spec (§4.3 steps 1-2): the run-reduced valley Highlights. -/
def valleyHighlights (cfg : DetectorConfig) (buckets : List Bucket) : List Highlight :=
  (runReduce (isValleyBucket cfg) betterValleyB none buckets).map (mkHighlight .valley)

/-- Modelled from the spec (§4.3 step 3): peaks after the merge pass. -/
def mergedPeaks (cfg : DetectorConfig) (buckets : List Bucket) : List Highlight :=
  mergeClose cfg.minSeparationSeconds betterPeakH
    (peakHighlights cfg buckets).length (peakHighlights cfg buckets)

/-- Modelled from the spec (§4.3 step 3): valleys after the merge pass. -/
def mergedValleys (cfg : DetectorConfig) (buckets : List Bucket) : List Highlight :=
  mergeClose cfg.minSeparationSeconds betterValleyH
    (valleyHighlights cfg buckets).length (valleyHighlights cfg buckets)

/-- Modelled from the spec: the Highlight Detector (§4.3; its code is not under
src/).  Classify buckets (peak priority), reduce runs to extremal
representatives, merge same-kind neighbours closer than the minimum separation,
and emit the result sorted by timestamp. -/
def detectHighlights (cfg : DetectorConfig) (buckets : List Bucket) : List Highlight :=
  mergeByTime ((mergedPeaks cfg buckets).length + (mergedValleys cfg buckets).length)
    (mergedPeaks cfg buckets) (mergedValleys cfg buckets)

/-! ### CSV Interchange — modelled from the spec (§4.4; no code under src/) -/

/-- Modelled from the spec (§4.4, §7): the terminal import failure kind. -/
inductive ImportError where
  | emptyImport : ImportError
deriving DecidableEq

deriving instance DecidableEq for Except

/-- Zero-padded `e`-digit rendering of a fractional part `m < 10 ^ e`. -/
def fracStr (e m : ℕ) : List Char :=
  List.replicate (e - (natStr m).length) '0' ++ natStr m

/-- Modelled from the spec (§4.4, §6): exact plain-decimal rendering of a
rational number.  `q.den` decimal places are used: any denominator whose prime
factors are 2 and 5 divides `10 ^ q.den`, so that many places always render
such a rational exactly (a real exporter prints the shortest exact decimal,
which denotes the same value). -/
def decString (q : ℚ) : List Char :=
  (if q.num < 0 then ['-'] else []) ++
    natStr (q.num.natAbs * 10 ^ q.den / q.den / 10 ^ q.den) ++
      '.' :: fracStr q.den (q.num.natAbs * 10 ^ q.den / q.den % 10 ^ q.den)

/-- Modelled from the spec (§3, §4.4): the CSV name of a Highlight kind. -/
def kindStr : HKind → List Char
  | .peak => ['p', 'e', 'a', 'k']
  | .valley => ['v', 'a', 'l', 'l', 'e', 'y']

/-- Two-digit zero-padded rendering for `hh:mm:ss` fields. -/
def pad2 (n : ℕ) : List Char :=
  fracStr 2 n

/-- Modelled from the spec (§4.4, §6): the `hh:mm:ss` rendering of a timestamp
for column 5 (whole seconds, floor). -/
def hhmmss (q : ℚ) : List Char :=
  pad2 ((Rat.floor q).toNat / 3600) ++ ':' ::
    (pad2 ((Rat.floor q).toNat / 60 % 60) ++ ':' :: pad2 ((Rat.floor q).toNat % 60))

/-- Modelled from the spec (§4.4, §6): one exported CSV row — column 1 the
timestamp in plain decimal seconds, then `kind`, `score`, a free-text comment
(empty here), and the `hh:mm:ss` timestamp in the reserved fifth column. -/
def exportRow (h : Highlight) : List Char :=
  joinChar ',' [decString h.timestamp, kindStr h.kind, decString h.score, [],
    hhmmss h.timestamp]

/-- Modelled from the spec (§4.4): the exported CSV text, one row per
Highlight, newline separated. -/
def exportCSV (hs : List Highlight) : List Char :=
  joinChar '\n' (hs.map exportRow)

/-- Modelled from the spec (§4.4): strict parser for an unsigned decimal
numeral (the whole cell must be `digits` or `digits.digits`). -/
def parseNumNat (l : List Char) : Option ℚ :=
  let ip := takeDigits l
  if ip.1 = [] then none
  else
    match ip.2 with
    | [] => some ((evalDigits ip.1 : ℚ))
    | '.' :: r2 =>
      let fp := takeDigits r2
      if fp.1 = [] ∨ fp.2 ≠ [] then none
      else some ((evalDigits ip.1 : ℚ) + (evalDigits fp.1 : ℚ) / 10 ^ fp.1.length)
    | _ => none

/-- Modelled from the spec (§4.4): strict signed decimal-numeral parser used by
the import when reading timestamp and score cells. -/
def parseNum (l : List Char) : Option ℚ :=
  if l.head? = some '-' then (parseNumNat l.tail).map (fun x => -x)
  else parseNumNat l

/-- Modelled from the spec (§4.4): parse a kind cell. -/
def parseKind (l : List Char) : Option HKind :=
  if l = ['p', 'e', 'a', 'k'] then some .peak
  else if l = ['v', 'a', 'l', 'l', 'e', 'y'] then some .valley
  else none

/-- Modelled from the spec (§4.4): parse one CSV row back into a Highlight,
reading the exported columns — column 1 timestamp, column 2 kind, column 3
score; `none` when any of them fails to parse. -/
def parseRow (row : List Char) : Option Highlight :=
  let cells := splitChar ',' row
  match cells.get? 0, cells.get? 1, cells.get? 2 with
  | some c0, some c1, some c2 =>
    match parseNum c0, parseKind c1, parseNum c2 with
    | some t, some k, some s => some ⟨t, s, k⟩
    | _, _, _ => none
  | _, _, _ => none

/-- Modelled from the spec (§4.4, §7): the CSV import — split the text into
rows, parse each row, skip and count the rows that fail, and fail with
`EmptyImport` iff zero valid rows result. -/
def csvImport (text : List Char) : Except ImportError (List Highlight × ℕ) :=
  let rows := splitChar '\n' text
  let good := rows.filterMap parseRow
  if good = [] then .error .emptyImport
  else .ok (good, rows.length - good.length)

/-- A rational with a finite decimal expansion, stated in the form the
exporter needs: the reduced denominator divides `10 ^ den`.  This holds
exactly for denominators whose prime factors are 2 and 5 — in particular for
every binary floating-point value (which is a dyadic rational). -/
def FiniteDec (q : ℚ) : Prop := q.den ∣ 10 ^ q.den

instance (q : ℚ) : Decidable (FiniteDec q) := by
  unfold FiniteDec
  infer_instance

/-! ### Utility lemmas -/

theorem digitVal_digitChar {m : ℕ} (h : m < 10) : digitVal (digitChar m) = m := by
  interval_cases m <;> rfl

theorem isDigit_digitChar {m : ℕ} (h : m < 10) : (digitChar m).isDigit = true := by
  interval_cases m <;> rfl

theorem isDigit_ne {c d : Char} (h : c.isDigit = true) (hd : d.isDigit = false) :
    c ≠ d := by
  rintro rfl
  rw [h] at hd
  cases hd

theorem isDigit_not_ws {c : Char} (h : c.isDigit = true) : isWS c = false := by
  simp only [isWS, Bool.or_eq_false_iff, decide_eq_false_iff_not]
  refine ⟨⟨⟨?_, ?_⟩, ?_⟩, ?_⟩ <;> rintro rfl <;> simp [Char.isDigit] at h

theorem evalDigits_append_singleton (l : List Char) (c : Char) :
    evalDigits (l ++ [c]) = 10 * evalDigits l + digitVal c := by
  simp [evalDigits, List.foldl_append]

theorem evalDigits_natDigits : ∀ f n, n ≤ f → evalDigits (natDigits f n) = n := by
  intro f
  induction f with
  | zero =>
    intro n hn
    interval_cases n
    rfl
  | succ f ih =>
    intro n hn
    by_cases h0 : n = 0
    · subst h0; rfl
    · have hdiv : n / 10 ≤ f := by
        have : n / 10 < n := Nat.div_lt_self (Nat.pos_of_ne_zero h0) (by norm_num)
        omega
      have hlt : n % 10 < 10 := Nat.mod_lt _ (by norm_num)
      simp only [natDigits, h0, if_false]
      rw [evalDigits_append_singleton, ih _ hdiv, digitVal_digitChar hlt]
      omega

theorem natDigits_all_digits : ∀ f n c, c ∈ natDigits f n → c.isDigit = true := by
  intro f
  induction f with
  | zero => intro n c hc; simp [natDigits] at hc
  | succ f ih =>
    intro n c hc
    by_cases h0 : n = 0
    · subst h0; simp [natDigits] at hc
    · simp only [natDigits, h0, if_false, List.mem_append, List.mem_singleton] at hc
      rcases hc with hc | rfl
      · exact ih _ _ hc
      · exact isDigit_digitChar (Nat.mod_lt _ (by norm_num))

theorem natDigits_length_le : ∀ f n k, n < 10 ^ k → (natDigits f n).length ≤ k := by
  intro f
  induction f with
  | zero => intro n k _; simp [natDigits]
  | succ f ih =>
    intro n k hk
    by_cases h0 : n = 0
    · subst h0; simp [natDigits]
    · have hk1 : 1 ≤ k := by
        by_contra hlt
        have : k = 0 := by omega
        subst this
        simp at hk
        omega
      have hdiv : n / 10 < 10 ^ (k - 1) := by
        have h10 : (0:ℕ) < 10 := by norm_num
        rw [Nat.div_lt_iff_lt_mul h10]
        calc n < 10 ^ k := hk
        _ = 10 ^ (k - 1) * 10 := by
              rw [← pow_succ]
              congr 1
              omega
      simp only [natDigits, h0, if_false, List.length_append, List.length_singleton]
      have := ih (n / 10) (k - 1) hdiv
      omega

theorem evalDigits_natStr (n : ℕ) : evalDigits (natStr n) = n := by
  by_cases h0 : n = 0
  · subst h0; rfl
  · simp only [natStr, h0, if_false]
    exact evalDigits_natDigits n n le_rfl

theorem natStr_ne_nil (n : ℕ) : natStr n ≠ [] := by
  by_cases h0 : n = 0
  · subst h0; simp [natStr]
  · simp only [natStr, h0, if_false]
    cases n with
    | zero => exact absurd rfl h0
    | succ m => simp [natDigits]

theorem natStr_all_digits (n : ℕ) {c : Char} (hc : c ∈ natStr n) : c.isDigit = true := by
  by_cases h0 : n = 0
  · subst h0
    have : c = '0' := by simpa [natStr] using hc
    subst this
    rfl
  · simp only [natStr, h0, if_false] at hc
    exact natDigits_all_digits n n c hc

theorem natStr_length_le {n k : ℕ} (hk : 1 ≤ k) (hn : n < 10 ^ k) :
    (natStr n).length ≤ k := by
  by_cases h0 : n = 0
  · subst h0; simpa [natStr] using hk
  · simp only [natStr, h0, if_false]
    exact natDigits_length_le n n k hn

theorem evalDigits_replicate_zero : ∀ k (l : List Char),
    evalDigits (List.replicate k '0' ++ l) = evalDigits l := by
  intro k
  induction k with
  | zero => intro l; rfl
  | succ k ih =>
    intro l
    simp only [List.replicate_succ, List.cons_append]
    show List.foldl _ (10 * 0 + digitVal '0') _ = _
    have : 10 * 0 + digitVal '0' = 0 := rfl
    rw [this]
    exact ih l

theorem takeDigits_all {ds : List Char} (h : ∀ c ∈ ds, c.isDigit = true) (r : List Char) :
    takeDigits (ds ++ r) = (ds ++ (takeDigits r).1, (takeDigits r).2) := by
  induction ds with
  | nil => simp
  | cons c cs ih =>
    have hc : c.isDigit = true := h c (List.mem_cons_self c cs)
    have hcs : ∀ x ∈ cs, x.isDigit = true := fun x hx => h x (List.mem_cons_of_mem c hx)
    simp only [List.cons_append, takeDigits, hc, if_true, List.append_eq, ih hcs]

theorem takeDigits_nondigit {c : Char} (hc : c.isDigit = false) (r : List Char) :
    takeDigits (c :: r) = ([], c :: r) := by
  simp [takeDigits, hc]

theorem splitCharAux_append_sep (sep : Char) (x y : List Char) :
    splitCharAux sep (x ++ sep :: y) =
      ((splitCharAux sep x).1, (splitCharAux sep x).2 ++ splitChar sep y) := by
  induction x with
  | nil => simp [splitCharAux, splitChar]
  | cons c t ih =>
    by_cases hc : c = sep
    · subst hc
      simp [List.cons_append, splitCharAux, List.append_eq, ih]
    · simp [List.cons_append, splitCharAux, List.append_eq, ih, hc]

theorem splitChar_append_sep (sep : Char) (x y : List Char) :
    splitChar sep (x ++ sep :: y) = splitChar sep x ++ splitChar sep y := by
  simp [splitChar, splitCharAux_append_sep]

theorem splitCharAux_no_sep {sep : Char} : ∀ {x : List Char}, sep ∉ x →
    splitCharAux sep x = (x, []) := by
  intro x
  induction x with
  | nil => intro _; rfl
  | cons c t ih =>
    intro h
    have hc : c ≠ sep := fun hcs => h (hcs ▸ List.mem_cons_self c t)
    have ht : sep ∉ t := fun hts => h (List.mem_cons_of_mem c hts)
    simp [splitCharAux, ih ht, hc]

theorem splitChar_no_sep {sep : Char} {x : List Char} (h : sep ∉ x) :
    splitChar sep x = [x] := by
  simp [splitChar, splitCharAux_no_sep h]

theorem splitChar_join (sep : Char) : ∀ (cells : List (List Char)),
    cells ≠ [] → (∀ cell ∈ cells, sep ∉ cell) →
    splitChar sep (joinChar sep cells) = cells := by
  intro cells
  induction cells with
  | nil => intro h; exact absurd rfl h
  | cons c cs ih =>
    intro _ hall
    cases cs with
    | nil => exact splitChar_no_sep (hall c (List.mem_cons_self c []))
    | cons d ds =>
      have hc : sep ∉ c := hall c (List.mem_cons_self c (d :: ds))
      have hrest : ∀ cell ∈ d :: ds, sep ∉ cell :=
        fun cell hcell => hall cell (List.mem_cons_of_mem c hcell)
      show splitChar sep (c ++ sep :: joinChar sep (d :: ds)) = c :: d :: ds
      rw [splitChar_append_sep, splitChar_no_sep hc,
        ih (by simp) hrest]
      rfl

theorem splitCharAux_snd_length (sep : Char) : ∀ (l : List Char),
    (splitCharAux sep l).2.length = l.count sep := by
  intro l
  induction l with
  | nil => rfl
  | cons c t ih =>
    by_cases hc : c = sep
    · subst hc
      simp [splitCharAux, ih, List.count_cons]
    · simp [splitCharAux, ih, hc, List.count_cons]

theorem splitChar_length (sep : Char) (l : List Char) :
    (splitChar sep l).length = l.count sep + 1 := by
  simp [splitChar, splitCharAux_snd_length]

theorem getAtNone {α : Type} : ∀ (l : List α) (n : ℕ), l.length ≤ n → l.get? n = none := by
  intro l
  induction l with
  | nil => intro n _; rfl
  | cons a t ih =>
    intro n hn
    cases n with
    | zero => simp at hn
    | succ m =>
      simp only [List.get?]
      exact ih m (by simpa using hn)

theorem mem_joinChar {sep : Char} {c : Char} : ∀ {cells : List (List Char)},
    c ∈ joinChar sep cells → c = sep ∨ ∃ cell ∈ cells, c ∈ cell := by
  intro cells
  induction cells with
  | nil => intro h; simp [joinChar] at h
  | cons x cs ih =>
    intro h
    cases cs with
    | nil =>
      right
      exact ⟨x, List.mem_cons_self x [], h⟩
    | cons d ds =>
      simp only [joinChar, List.mem_append, List.mem_cons] at h
      rcases h with hx | rfl | hrest
      · right; exact ⟨x, List.mem_cons_self x (d :: ds), hx⟩
      · left; rfl
      · rcases ih hrest with hsep | ⟨cell, hcell, hc⟩
        · left; exact hsep
        · right; exact ⟨cell, List.mem_cons_of_mem x hcell, hc⟩

theorem trimChars_no_ws {l : List Char} (h : ∀ c ∈ l, isWS c = false) :
    trimChars l = l := by
  have h1 : l.dropWhile isWS = l := by
    cases l with
    | nil => rfl
    | cons c t => simp [List.dropWhile_cons, h c (List.mem_cons_self c t)]
  have h2 : l.reverse.dropWhile isWS = l.reverse := by
    cases hr : l.reverse with
    | nil => rfl
    | cons c t =>
      have hc : c ∈ l := by
        rw [← List.mem_reverse, hr]
        exact List.mem_cons_self c t
      simp [List.dropWhile_cons, h c hc]
  simp [trimChars, h1, h2]

/-! ### Lemmas about the importer models -/

theorem not_mem_of_all_digits {ds : List Char} (h : ∀ c ∈ ds, c.isDigit = true)
    {d : Char} (hd : d.isDigit = false) : d ∉ ds := by
  intro hm
  have := h d hm
  rw [hd] at this
  cases this

theorem trim_ne_nil_of_cols {line : List Char}
    (h : 5 ≤ (splitChar ',' (trimChars line)).length) : ¬ trimChars line = [] := by
  intro he
  rw [he] at h
  simp [splitChar, splitCharAux] at h

theorem jsParseInt_digits {ds : List Char} (h : ∀ c ∈ ds, c.isDigit = true)
    (hne : ds ≠ []) (rest : List Char) (hrest : takeDigits rest = ([], rest)) :
    jsParseInt (ds ++ rest) = some (evalDigits ds : ℤ) := by
  obtain ⟨d, ds2, rfl⟩ := List.exists_cons_of_ne_nil hne
  have hd : d.isDigit = true := h d (List.mem_cons_self d ds2)
  have hdrop : ((d :: ds2) ++ rest).dropWhile isWS = (d :: ds2) ++ rest := by
    simp [List.cons_append, List.dropWhile_cons, isDigit_not_ws hd]
  have hsgn : parseSign ((d :: ds2) ++ rest) = (false, (d :: ds2) ++ rest) := by
    have h1 : d ≠ '-' := isDigit_ne hd rfl
    have h2 : d ≠ '+' := isDigit_ne hd rfl
    simp [List.cons_append, parseSign, h1, h2]
  have htd : takeDigits ((d :: ds2) ++ rest) = (d :: ds2, rest) := by
    rw [takeDigits_all h rest, hrest]
    simp
  simp only [jsParseInt, hdrop, hsgn, htd]
  simp

theorem splitColon_three (hD mD x3 : List Char)
    (h1 : ':' ∉ hD) (h2 : ':' ∉ mD) (h3 : ':' ∉ x3) :
    splitChar ':' (hD ++ ':' :: (mD ++ ':' :: x3)) = [hD, mD, x3] := by
  rw [splitChar_append_sep, splitChar_append_sep, splitChar_no_sep h1,
    splitChar_no_sep h2, splitChar_no_sep h3]
  rfl

theorem tts_parts (hD mD x3 : List Char)
    (hh : ∀ c ∈ hD, c.isDigit = true) (hm : ∀ c ∈ mD, c.isDigit = true)
    (hne1 : hD ≠ []) (hne2 : mD ≠ []) (h3 : ':' ∉ x3)
    (s3 : ℤ) (hp3 : jsParseInt x3 = some s3) :
    timestampToSeconds (hD ++ ':' :: (mD ++ ':' :: x3)) =
      .num (((evalDigits hD : ℤ) * 3600 + (evalDigits mD : ℤ) * 60 + s3 : ℤ) : ℚ) := by
  have hc1 : ':' ∉ hD := not_mem_of_all_digits hh rfl
  have hc2 : ':' ∉ mD := not_mem_of_all_digits hm rfl
  have hph : jsParseInt hD = some (evalDigits hD : ℤ) := by
    have := jsParseInt_digits hh hne1 [] rfl
    simpa using this
  have hpm : jsParseInt mD = some (evalDigits mD : ℤ) := by
    have := jsParseInt_digits hm hne2 [] rfl
    simpa using this
  simp only [timestampToSeconds, splitColon_three hD mD x3 hc1 hc2 h3]
  simp [hph, hpm, hp3]

theorem premierProcessLine_of_num {line : List Char}
    (hlen : 5 ≤ (splitChar ',' (trimChars line)).length) (v : ℚ)
    (htts : timestampToSeconds ((splitChar ',' (trimChars line)).getD 4 []) = .num v) :
    premierProcessLine line = some (.num v) := by
  have hne := trim_ne_nil_of_cols hlen
  have hnl : ¬ (splitChar ',' (trimChars line)).length < 5 := by omega
  simp only [premierProcessLine, if_neg hne, if_neg hnl, htts]
  rfl

theorem tts_nan_of_colons {x : List Char} (h : x.count ':' < 2) :
    timestampToSeconds x = .nan := by
  have hlen : (splitChar ':' x).length ≤ 2 := by
    rw [splitChar_length]
    omega
  have hget : (splitChar ':' x).get? 2 = none := getAtNone _ _ hlen
  cases h1 : ((splitChar ':' x).get? 0).bind jsParseInt <;>
    cases h2 : ((splitChar ':' x).get? 1).bind jsParseInt <;>
      (simp only [List.get?_eq_getElem?] at hget h1 h2
       simp [timestampToSeconds, hget, h1, h2])

theorem aeProcessLine_eq (line : List Char) :
    aeProcessLine line =
      if aeQualifies line then some (jsParseFloat (trimChars line)) else none := by
  by_cases h1 : trimChars line = []
  · simp [aeProcessLine, aeQualifies, h1]
  · by_cases h2 : (jsParseFloat (trimChars line)).isNaN
    · simp [aeProcessLine, aeQualifies, h1, h2, List.isEmpty_iff]
    · simp [aeProcessLine, aeQualifies, h1, h2, List.isEmpty_iff]

theorem aeLoop_eq (lines : List (List Char)) : ∀ acc,
    aeLoop acc lines =
      acc ++ (lines.filter aeQualifies).map (fun l => jsParseFloat (trimChars l)) := by
  induction lines with
  | nil => intro acc; simp [aeLoop]
  | cons l ls ih =>
    intro acc
    by_cases hq : aeQualifies l
    · simp only [aeLoop, aeProcessLine_eq, hq, if_true]
      rw [ih]
      simp [List.filter_cons, hq]
    · simp only [aeLoop, aeProcessLine_eq, hq, if_false]
      rw [ih]
      simp [List.filter_cons, hq]

/-! ### Claim theorems for the importer scripts -/

/-- Claim C2: the simple-format importer adds exactly one marker per qualifying
input line — a line that is non-empty after trimming and whose text parses to a
number (`parseFloat` not NaN) adds one marker at that number of seconds; every
other line adds no marker; no line aborts the run (the loop is total and
processes every line). -/
theorem c2_simple_importer_markers (lines : List (List Char)) :
    aeImport lines =
      (lines.filter aeQualifies).map (fun l => jsParseFloat (trimChars l)) := by
  simpa using aeLoop_eq lines []

/-- Claim C5: for every processed row whose fifth comma-separated column is an
`hh:mm:ss` string with nonempty decimal-digit fields, the header-aware importer
places its marker at exactly `hh*3600 + mm*60 + ss` seconds. -/
theorem c5_fifth_column_hhmmss (line hD mD sD : List Char)
    (hh : ∀ c ∈ hD, c.isDigit = true) (hm : ∀ c ∈ mD, c.isDigit = true)
    (hs : ∀ c ∈ sD, c.isDigit = true)
    (hne1 : hD ≠ []) (hne2 : mD ≠ []) (hne3 : sD ≠ [])
    (hlen : 5 ≤ (splitChar ',' (trimChars line)).length)
    (hcol : (splitChar ',' (trimChars line)).getD 4 [] = hD ++ ':' :: (mD ++ ':' :: sD)) :
    premierProcessLine line =
      some (.num (((evalDigits hD : ℤ) * 3600 + (evalDigits mD : ℤ) * 60 +
        (evalDigits sD : ℤ) : ℤ) : ℚ)) := by
  apply premierProcessLine_of_num hlen
  rw [hcol]
  exact tts_parts hD mD sD hh hm hne1 hne2 (not_mem_of_all_digits hs rfl) _
    (by simpa using jsParseInt_digits hs hne3 [] rfl)

/-- Claim C9: the header-aware importer truncates fractional seconds — a fifth
column of the form `hh:mm:ss.fff` (digit fields, digit fraction) yields a marker
at `hh*3600 + mm*60 + ss`, the fraction being discarded by `parseInt`. -/
theorem c9_fraction_truncated (line hD mD sD fD : List Char)
    (hh : ∀ c ∈ hD, c.isDigit = true) (hm : ∀ c ∈ mD, c.isDigit = true)
    (hs : ∀ c ∈ sD, c.isDigit = true) (hf : ∀ c ∈ fD, c.isDigit = true)
    (hne1 : hD ≠ []) (hne2 : mD ≠ []) (hne3 : sD ≠ [])
    (hlen : 5 ≤ (splitChar ',' (trimChars line)).length)
    (hcol : (splitChar ',' (trimChars line)).getD 4 [] =
      hD ++ ':' :: (mD ++ ':' :: (sD ++ '.' :: fD))) :
    premierProcessLine line =
      some (.num (((evalDigits hD : ℤ) * 3600 + (evalDigits mD : ℤ) * 60 +
        (evalDigits sD : ℤ) : ℤ) : ℚ)) := by
  apply premierProcessLine_of_num hlen
  rw [hcol]
  have hcolon : (':' : Char).isDigit = false := rfl
  have hdot : ('.' : Char).isDigit = false := rfl
  have hno : ':' ∉ sD ++ '.' :: fD := by
    simp only [List.mem_append, List.mem_cons]
    rintro (hmem | hmem | hmem)
    · exact not_mem_of_all_digits hs hcolon hmem
    · exact absurd hmem (by decide)
    · exact not_mem_of_all_digits hf hcolon hmem
  exact tts_parts hD mD (sD ++ '.' :: fD) hh hm hne1 hne2 hno _
    (jsParseInt_digits hs hne3 ('.' :: fD) (takeDigits_nondigit hdot fD))

/-- Claim C8 (implicit): a trimmed non-empty row with fewer than five
comma-separated columns adds no marker, raises no error (the model is a total
function), and the loop continues with the subsequent rows unchanged. -/
theorem c8_short_row_skipped (line : List Char)
    (h1 : trimChars line ≠ [])
    (h2 : (splitChar ',' (trimChars line)).length < 5) :
    premierProcessLine line = none ∧
    ∀ acc rest, premierLoop acc (line :: rest) = premierLoop acc rest := by
  have hp : premierProcessLine line = none := by
    simp only [premierProcessLine, if_neg h1, if_pos h2]
  exact ⟨hp, fun acc rest => by simp [premierLoop, hp]⟩

/-- Claim C10 (implicit): a fifth column containing fewer than two colons
(e.g. plain seconds `95` or `mm:ss`) converts to NaN — the third
colon-separated field is missing, its `parseInt` is NaN, and NaN propagates —
so the row adds no marker. -/
theorem c10_needs_three_fields (line : List Char)
    (hlen : 5 ≤ (splitChar ',' (trimChars line)).length)
    (hc : ((splitChar ',' (trimChars line)).getD 4 []).count ':' < 2) :
    timestampToSeconds ((splitChar ',' (trimChars line)).getD 4 []) = .nan ∧
    premierProcessLine line = none := by
  have hnan := tts_nan_of_colons hc
  refine ⟨hnan, ?_⟩
  have hne := trim_ne_nil_of_cols hlen
  have hnl : ¬ (splitChar ',' (trimChars line)).length < 5 := by omega
  simp only [premierProcessLine, if_neg hne, if_neg hnl, hnan]
  rfl

/-! ### Lemmas for claim C4 -/

theorem get?_append_left {α : Type} : ∀ (l l2 : List α) (n : ℕ), n < l.length →
    (l ++ l2).get? n = l.get? n := by
  intro l
  induction l with
  | nil => intro l2 n h; simp at h
  | cons a t ih =>
    intro l2 n h
    cases n with
    | zero => rfl
    | succ m =>
      simp only [List.cons_append, List.get?]
      exact ih l2 m (by simpa using h)

theorem get?_eq_getD {α : Type} : ∀ (l : List α) (n : ℕ) (d : α), n < l.length →
    l.get? n = some (l.getD n d) := by
  intro l
  induction l with
  | nil => intro n d h; simp at h
  | cons a t ih =>
    intro n d h
    cases n with
    | zero => rfl
    | succ m =>
      simp only [List.get?, List.getD_cons_succ]
      exact ih m d (by simpa using h)

theorem premierProcessLine_fifth (row : List Char) :
    premierProcessLine row =
      fifthColumnMarker ((splitChar ',' (trimChars row)).get? 4) := by
  by_cases h1 : trimChars row = []
  · rw [h1]
    simp [premierProcessLine, h1, splitChar, splitCharAux, fifthColumnMarker]
  · by_cases h2 : (splitChar ',' (trimChars row)).length < 5
    · have hget : (splitChar ',' (trimChars row)).get? 4 = none :=
        getAtNone _ _ (by omega)
      simp only [List.get?_eq_getElem?] at hget
      simp [premierProcessLine, h1, h2, hget, fifthColumnMarker]
    · have h4 : 4 < (splitChar ',' (trimChars row)).length := by omega
      have hget : (splitChar ',' (trimChars row)).get? 4 =
          some ((splitChar ',' (trimChars row)).getD 4 []) :=
        get?_eq_getD _ _ _ h4
      rw [hget]
      simp only [premierProcessLine, if_neg h1, if_neg h2, fifthColumnMarker]

theorem parseMantissa_int {intD : List Char} (hint : ∀ c ∈ intD, c.isDigit = true)
    (hine : intD ≠ []) (tail : List Char)
    (htail : takeDigits tail = ([], tail))
    (hshape : tail = [] ∨ ∃ c r, tail = c :: r ∧ c ≠ '.') :
    parseMantissa (intD ++ tail) = some ((evalDigits intD : ℚ), tail) := by
  have htd : takeDigits (intD ++ tail) = (intD, tail) := by
    rw [takeDigits_all hint tail, htail]
    simp
  rcases hshape with rfl | ⟨c, r, rfl, hc⟩
  · simp only [List.append_nil] at htd
    simp [parseMantissa, htd, hine]
  · simp only [parseMantissa, htd]
    split
    · next r2 heq =>
      exfalso
      exact hc (by injection heq)
    · simp [hine]

theorem parseMantissa_frac {intD fracD : List Char}
    (hint : ∀ c ∈ intD, c.isDigit = true) (hine : intD ≠ [])
    (hfrac : ∀ c ∈ fracD, c.isDigit = true)
    (rest2 : List Char) (hrest2 : takeDigits rest2 = ([], rest2)) :
    parseMantissa (intD ++ '.' :: (fracD ++ rest2)) =
      some ((evalDigits intD : ℚ) + (evalDigits fracD : ℚ) / 10 ^ fracD.length, rest2) := by
  have hdot : ('.' : Char).isDigit = false := rfl
  have htd : takeDigits (intD ++ '.' :: (fracD ++ rest2)) =
      (intD, '.' :: (fracD ++ rest2)) := by
    rw [takeDigits_all hint _, takeDigits_nondigit hdot]
    simp
  have htf : takeDigits (fracD ++ rest2) = (fracD, rest2) := by
    rw [takeDigits_all hfrac _, hrest2]
    simp
  simp [parseMantissa, htd, htf, hine]

theorem jsParseFloat_lit (sgn : List Char) {body : List Char} (v : ℚ) {rem : List Char}
    (hsgn : sgn = [] ∨ sgn = ['-'] ∨ sgn = ['+'])
    (hbody : ∃ d r, body = d :: r ∧ d.isDigit = true)
    (hm : parseMantissa body = some (v, rem))
    (hrem : rem = [] ∨ ∃ r2, rem = ',' :: r2) :
    jsParseFloat (sgn ++ body) = .num (if sgn = ['-'] then -v else v) := by
  obtain ⟨d, r, rfl, hd⟩ := hbody
  have hexp : parseExponent rem = 0 := by
    rcases hrem with rfl | ⟨r2, rfl⟩
    · rfl
    · simp [parseExponent]
  have hIne : ('I' : Char) ≠ d :=
    Ne.symm (isDigit_ne hd (show ('I' : Char).isDigit = false from rfl))
  have hinf : hasPrefix ('I' :: 'n' :: 'f' :: 'i' :: 'n' :: 'i' :: 't' :: 'y' :: [])
      (d :: r) = false := by
    simp [hasPrefix, hIne]
  have hdrop : List.dropWhile isWS (d :: r) = d :: r := by
    simp [List.dropWhile_cons, isDigit_not_ws hd]
  have hps : parseSign (d :: r) = (false, d :: r) := by
    have h1 : d ≠ '-' := isDigit_ne hd (show ('-' : Char).isDigit = false from rfl)
    have h2 : d ≠ '+' := isDigit_ne hd (show ('+' : Char).isDigit = false from rfl)
    simp [parseSign, h1, h2]
  rcases hsgn with rfl | rfl | rfl
  · simp only [List.nil_append, jsParseFloat, hdrop, hps, hinf, hm, hexp]
    norm_num
  · have hdrop2 : List.dropWhile isWS ('-' :: d :: r) = '-' :: d :: r := by
      simp [List.dropWhile_cons, isWS]
    have hps2 : parseSign ('-' :: d :: r) = (true, d :: r) := by
      simp [parseSign]
    simp only [List.cons_append, List.nil_append, jsParseFloat, hdrop2, hps2, hinf, hm, hexp]
    norm_num
  · have hdrop2 : List.dropWhile isWS ('+' :: d :: r) = '+' :: d :: r := by
      simp [List.dropWhile_cons, isWS]
    have hps2 : parseSign ('+' :: d :: r) = (false, d :: r) := by
      simp [parseSign]
    simp only [List.cons_append, List.nil_append, jsParseFloat, hdrop2, hps2, hinf, hm, hexp]
    norm_num [show ('+' : Char) ≠ '-' from by decide]

theorem aeProcessLine_of_parse {a : List Char} (hne : a ≠ [])
    (htrim : trimChars a = a) (v : ℚ) (hp : jsParseFloat a = .num v) :
    aeProcessLine a = some (.num v) := by
  simp only [aeProcessLine, htrim, if_neg hne, hp]
  rfl

/-- Claim C4: consumers ignore unrecognized columns.  The column-based
importer's per-row marker is a function of the fifth comma-separated column
alone (`fifthColumnMarker`), so appending extra columns to a row that already
has five changes nothing; and the simple-format importer's marker for a row
whose first column is a decimal-number literal is that literal's value
regardless of trailing columns (`parseFloat` stops at the first comma). -/
theorem c4_unrecognized_columns_ignored
    (row extra a rest sgn intD fracD : List Char)
    (hrow : trimChars row = row)
    (hrowx : trimChars (row ++ ',' :: extra) = row ++ ',' :: extra)
    (hlen : 5 ≤ (splitChar ',' row).length)
    (hsgn : sgn = [] ∨ sgn = ['-'] ∨ sgn = ['+'])
    (hint : ∀ c ∈ intD, c.isDigit = true) (hine : intD ≠ [])
    (hfrac : ∀ c ∈ fracD, c.isDigit = true)
    (ha : (a = sgn ++ intD ∧ fracD = []) ∨ a = sgn ++ intD ++ '.' :: fracD)
    (hax : trimChars (a ++ ',' :: rest) = a ++ ',' :: rest) :
    (∀ r2, premierProcessLine r2 =
      fifthColumnMarker ((splitChar ',' (trimChars r2)).get? 4)) ∧
    premierProcessLine (row ++ ',' :: extra) = premierProcessLine row ∧
    aeProcessLine (a ++ ',' :: rest) = aeProcessLine a ∧
    aeProcessLine a = some (.num (if sgn = ['-']
      then -((evalDigits intD : ℚ) + (evalDigits fracD : ℚ) / 10 ^ fracD.length)
      else (evalDigits intD : ℚ) + (evalDigits fracD : ℚ) / 10 ^ fracD.length)) := by
  have hcomma : (',' : Char).isDigit = false := rfl
  have hcommaNotDot : (',' : Char) ≠ '.' := by decide
  refine ⟨premierProcessLine_fifth, ?_, ?_⟩
  · rw [premierProcessLine_fifth (row ++ ',' :: extra), premierProcessLine_fifth row,
      hrowx, hrow, splitChar_append_sep]
    exact congrArg fifthColumnMarker (get?_append_left _ _ 4 (by omega))
  · obtain ⟨d, r0, rfl⟩ := List.exists_cons_of_ne_nil hine
    have hd : d.isDigit = true := hint d (List.mem_cons_self d r0)
    have hsgnws : ∀ c ∈ sgn, isWS c = false := by
      rcases hsgn with rfl | rfl | rfl
      · intro c hc; cases hc
      · intro c hc
        rw [List.mem_singleton] at hc
        subst hc; rfl
      · intro c hc
        rw [List.mem_singleton] at hc
        subst hc; rfl
    rcases ha with ⟨rfl, rfl⟩ | rfl
    · -- integer form, fracD = []
      have hm : parseMantissa (d :: r0) = some ((evalDigits (d :: r0) : ℚ), []) := by
        have := parseMantissa_int hint hine [] rfl (Or.inl rfl)
        simpa using this
      have hm2 : parseMantissa ((d :: r0) ++ ',' :: rest) =
          some ((evalDigits (d :: r0) : ℚ), ',' :: rest) :=
        parseMantissa_int hint hine (',' :: rest) (takeDigits_nondigit hcomma rest)
          (Or.inr ⟨',', rest, rfl, hcommaNotDot⟩)
      have hp1 : jsParseFloat (sgn ++ (d :: r0)) =
          .num (if sgn = ['-'] then -(evalDigits (d :: r0) : ℚ) else (evalDigits (d :: r0) : ℚ)) :=
        jsParseFloat_lit sgn _ hsgn ⟨d, r0, rfl, hd⟩ hm (Or.inl rfl)
      have hp2 : jsParseFloat (sgn ++ ((d :: r0) ++ ',' :: rest)) =
          .num (if sgn = ['-'] then -(evalDigits (d :: r0) : ℚ) else (evalDigits (d :: r0) : ℚ)) :=
        jsParseFloat_lit sgn _ hsgn ⟨d, r0 ++ ',' :: rest, by simp, hd⟩ hm2
          (Or.inr ⟨rest, rfl⟩)
      have hnws : ∀ c ∈ sgn ++ (d :: r0), isWS c = false := by
        intro c hc
        rcases List.mem_append.mp hc with hc | hc
        · exact hsgnws c hc
        · exact isDigit_not_ws (hint c hc)
      have htr : trimChars (sgn ++ (d :: r0)) = sgn ++ (d :: r0) := trimChars_no_ws hnws
      have hane : sgn ++ (d :: r0) ≠ [] := by simp
      have haxne : (sgn ++ (d :: r0)) ++ ',' :: rest ≠ [] := by simp
      have hassoc : (sgn ++ (d :: r0)) ++ ',' :: rest = sgn ++ ((d :: r0) ++ ',' :: rest) := by
        simp
      have e1 : aeProcessLine (sgn ++ (d :: r0)) =
          some (.num (if sgn = ['-'] then -(evalDigits (d :: r0) : ℚ) else (evalDigits (d :: r0) : ℚ))) :=
        aeProcessLine_of_parse hane htr _ hp1
      have e2 : aeProcessLine ((sgn ++ (d :: r0)) ++ ',' :: rest) =
          some (.num (if sgn = ['-'] then -(evalDigits (d :: r0) : ℚ) else (evalDigits (d :: r0) : ℚ))) := by
        apply aeProcessLine_of_parse haxne hax
        rw [hassoc]
        exact hp2
      refine ⟨e1 ▸ e2, ?_⟩
      rw [e1]
      norm_num [evalDigits]
    · -- fractional form
      have hbody1 : (d :: r0) ++ '.' :: fracD = (d :: r0) ++ '.' :: (fracD ++ []) := by simp
      have hm : parseMantissa ((d :: r0) ++ '.' :: fracD) =
          some ((evalDigits (d :: r0) : ℚ) + (evalDigits fracD : ℚ) / 10 ^ fracD.length, []) := by
        rw [hbody1]
        exact parseMantissa_frac hint hine hfrac [] rfl
      have hm2 : parseMantissa ((d :: r0) ++ '.' :: (fracD ++ ',' :: rest)) =
          some ((evalDigits (d :: r0) : ℚ) + (evalDigits fracD : ℚ) / 10 ^ fracD.length,
            ',' :: rest) :=
        parseMantissa_frac hint hine hfrac (',' :: rest) (takeDigits_nondigit hcomma rest)
      have hp1 : jsParseFloat (sgn ++ ((d :: r0) ++ '.' :: fracD)) =
          .num (if sgn = ['-']
            then -((evalDigits (d :: r0) : ℚ) + (evalDigits fracD : ℚ) / 10 ^ fracD.length)
            else (evalDigits (d :: r0) : ℚ) + (evalDigits fracD : ℚ) / 10 ^ fracD.length) :=
        jsParseFloat_lit sgn _ hsgn ⟨d, r0 ++ '.' :: fracD, by simp, hd⟩ hm (Or.inl rfl)
      have hp2 : jsParseFloat (sgn ++ ((d :: r0) ++ '.' :: (fracD ++ ',' :: rest))) =
          .num (if sgn = ['-']
            then -((evalDigits (d :: r0) : ℚ) + (evalDigits fracD : ℚ) / 10 ^ fracD.length)
            else (evalDigits (d :: r0) : ℚ) + (evalDigits fracD : ℚ) / 10 ^ fracD.length) :=
        jsParseFloat_lit sgn _ hsgn ⟨d, r0 ++ '.' :: (fracD ++ ',' :: rest), by simp, hd⟩ hm2
          (Or.inr ⟨rest, rfl⟩)
      have hnws : ∀ c ∈ sgn ++ (d :: r0) ++ '.' :: fracD, isWS c = false := by
        intro c hc
        rcases List.mem_append.mp hc with hc | hc
        · rcases List.mem_append.mp hc with hc | hc
          · exact hsgnws c hc
          · exact isDigit_not_ws (hint c hc)
        · rcases List.mem_cons.mp hc with rfl | hc
          · rfl
          · exact isDigit_not_ws (hfrac c hc)
      have htr : trimChars (sgn ++ (d :: r0) ++ '.' :: fracD) = sgn ++ (d :: r0) ++ '.' :: fracD :=
        trimChars_no_ws hnws
      have hane : sgn ++ (d :: r0) ++ '.' :: fracD ≠ [] := by simp
      have haxne : (sgn ++ (d :: r0) ++ '.' :: fracD) ++ ',' :: rest ≠ [] := by simp
      have hassoc : (sgn ++ (d :: r0) ++ '.' :: fracD) ++ ',' :: rest =
          sgn ++ ((d :: r0) ++ '.' :: (fracD ++ ',' :: rest)) := by
        simp
      have e1 : aeProcessLine (sgn ++ (d :: r0) ++ '.' :: fracD) =
          some (.num (if sgn = ['-']
            then -((evalDigits (d :: r0) : ℚ) + (evalDigits fracD : ℚ) / 10 ^ fracD.length)
            else (evalDigits (d :: r0) : ℚ) + (evalDigits fracD : ℚ) / 10 ^ fracD.length)) := by
        apply aeProcessLine_of_parse hane htr
        rw [List.append_assoc]
        exact hp1
      have e2 : aeProcessLine ((sgn ++ (d :: r0) ++ '.' :: fracD) ++ ',' :: rest) =
          some (.num (if sgn = ['-']
            then -((evalDigits (d :: r0) : ℚ) + (evalDigits fracD : ℚ) / 10 ^ fracD.length)
            else (evalDigits (d :: r0) : ℚ) + (evalDigits fracD : ℚ) / 10 ^ fracD.length)) := by
        apply aeProcessLine_of_parse haxne hax
        rw [hassoc]
        exact hp2
      exact ⟨e1 ▸ e2, e1⟩

/-! ### Claim C3: what the in-repo import code actually signals -/

/-- Claim C3 (amended): in both importer scripts a row that fails to parse a
valid timestamp is skipped and the run continues with the remaining rows, but
the failure is not counted anywhere and there is no `EmptyImport` failure
channel: both scripts end in their unconditional success alert, so a caller
can receive an empty marker list together with a success message. -/
theorem c3_skipped_but_uncounted (lines : List (List Char)) :
    (aeRun lines).2 = ("Markers added to the composition." : String).data ∧
    (premierRun lines).2 = ("Markers added to the sequence." : String).data ∧
    (∀ line rest, aeQualifies line = false → aeImport (line :: rest) = aeImport rest) ∧
    (∀ line acc rest, premierProcessLine line = none →
      premierLoop acc (line :: rest) = premierLoop acc rest) := by
  refine ⟨rfl, rfl, ?_, ?_⟩
  · intro line rest hq
    simp [aeImport, aeLoop, aeProcessLine_eq, hq]
  · intro line acc rest hp
    simp [premierLoop, hp]

/-! ### Lemmas about the Highlight Detector model (claim C7) -/

theorem chainToPairwise {α : Type} {R : α → α → Prop}
    (tr : ∀ a b c, R a b → R b c → R a c) :
    ∀ (l : List α), l.Chain' R → l.Pairwise R := by
  intro l
  induction l with
  | nil => intro _; exact List.Pairwise.nil
  | cons a t ih =>
    intro h
    rw [List.chain'_cons'] at h
    obtain ⟨hhead, htail⟩ := h
    have hp := ih htail
    refine List.Pairwise.cons ?_ hp
    cases t with
    | nil => intro b hb; cases hb
    | cons c t2 =>
      have hac : R a c := hhead c rfl
      intro b hb
      rcases List.mem_cons.mp hb with rfl | hb2
      · exact hac
      · exact tr _ _ _ hac (List.rel_of_pairwise_cons hp hb2)

theorem runReduce_mem {p : Bucket → Bool} {better : Bucket → Bucket → Bool} :
    ∀ (l : List Bucket) (st : Option Bucket) (x : Bucket),
      x ∈ runReduce p better st l → x ∈ st.toList ++ l := by
  intro l
  induction l with
  | nil =>
    intro st x hx
    cases st with
    | none => simp [runReduce] at hx
    | some c => simpa [runReduce] using hx
  | cons b bs ih =>
    intro st x hx
    cases st with
    | none =>
      simp only [runReduce] at hx
      by_cases hp : p b
      · rw [if_pos hp] at hx
        simpa using ih (some b) x hx
      · rw [if_neg hp] at hx
        have := ih none x hx
        simp only [Option.toList, List.nil_append] at this ⊢
        exact List.mem_cons_of_mem b this
    | some c =>
      simp only [runReduce] at hx
      by_cases hp : p b
      · rw [if_pos hp] at hx
        have := ih (some (if better c b then b else c)) x hx
        simp only [Option.toList, List.singleton_append] at this ⊢
        rcases List.mem_cons.mp this with rfl | h2
        · by_cases hb : better c b
          · rw [if_pos hb]
            exact List.mem_cons_of_mem _ (List.mem_cons_self b bs)
          · rw [if_neg hb]
            exact List.mem_cons_self c (b :: bs)
        · exact List.mem_cons_of_mem c (List.mem_cons_of_mem b h2)
      · rw [if_neg hp] at hx
        simp only [Option.toList, List.singleton_append]
        rcases List.mem_cons.mp hx with rfl | h2
        · exact List.mem_cons_self x (b :: bs)
        · have := ih none x h2
          simp only [Option.toList, List.nil_append] at this
          exact List.mem_cons_of_mem c (List.mem_cons_of_mem b this)

theorem runReduce_qualifies {p : Bucket → Bool} {better : Bucket → Bucket → Bool} :
    ∀ (l : List Bucket) (st : Option Bucket),
      (∀ c, st = some c → p c = true) →
      ∀ x ∈ runReduce p better st l, p x = true := by
  intro l
  induction l with
  | nil =>
    intro st hst x hx
    cases st with
    | none => simp [runReduce] at hx
    | some c =>
      simp only [runReduce, List.mem_singleton] at hx
      subst hx
      exact hst x rfl
  | cons b bs ih =>
    intro st hst x hx
    cases st with
    | none =>
      simp only [runReduce] at hx
      by_cases hp : p b
      · rw [if_pos hp] at hx
        exact ih (some b) (fun c hc => by cases hc; exact hp) x hx
      · rw [if_neg hp] at hx
        exact ih none (fun c hc => by cases hc) x hx
    | some c =>
      simp only [runReduce] at hx
      by_cases hp : p b
      · rw [if_pos hp] at hx
        refine ih (some (if better c b then b else c)) ?_ x hx
        intro c2 hc2
        by_cases hb : better c b
        · rw [if_pos hb] at hc2
          cases hc2
          exact hp
        · rw [if_neg hb] at hc2
          cases hc2
          exact hst c rfl
      · rw [if_neg hp] at hx
        rcases List.mem_cons.mp hx with rfl | h2
        · exact hst x rfl
        · exact ih none (fun c2 hc2 => by cases hc2) x h2

theorem runReduce_pairwise {p : Bucket → Bool} {better : Bucket → Bucket → Bool} :
    ∀ (l : List Bucket) (st : Option Bucket),
      (st.toList ++ l).Pairwise (fun a b => a.startTime < b.startTime) →
      (runReduce p better st l).Pairwise (fun a b => a.startTime < b.startTime) := by
  intro l
  induction l with
  | nil =>
    intro st hst
    cases st with
    | none => exact List.Pairwise.nil
    | some c => simp [runReduce]
  | cons b bs ih =>
    intro st hst
    cases st with
    | none =>
      simp only [Option.toList, List.nil_append] at hst
      simp only [runReduce]
      by_cases hp : p b
      · rw [if_pos hp]
        exact ih (some b) (by simpa using hst)
      · rw [if_neg hp]
        exact ih none (by simpa using hst.of_cons)
    | some c =>
      simp only [Option.toList, List.singleton_append] at hst
      simp only [runReduce]
      by_cases hp : p b
      · rw [if_pos hp]
        refine ih (some (if better c b then b else c)) ?_
        simp only [Option.toList, List.singleton_append]
        have hcb := List.rel_of_pairwise_cons hst (List.mem_cons_self b bs)
        have hcbs : ∀ x ∈ bs, c.startTime < x.startTime := fun x hx =>
          List.rel_of_pairwise_cons hst (List.mem_cons_of_mem b hx)
        have hbbs : ∀ x ∈ bs, b.startTime < x.startTime := fun x hx =>
          List.rel_of_pairwise_cons hst.of_cons hx
        refine List.Pairwise.cons ?_ hst.of_cons.of_cons
        intro x hx
        by_cases hb : better c b
        · rw [if_pos hb]; exact hbbs x hx
        · rw [if_neg hb]; exact hcbs x hx
      · rw [if_neg hp]
        have hcbs : ∀ x ∈ b :: bs, c.startTime < x.startTime := fun x hx =>
          List.rel_of_pairwise_cons hst hx
        refine List.Pairwise.cons ?_ (ih none (by simpa using hst.of_cons.of_cons))
        intro x hx
        have hxmem := runReduce_mem bs none x hx
        simp only [Option.toList, List.nil_append] at hxmem
        exact hcbs x (List.mem_cons_of_mem b hxmem)

theorem mergeClose_mem (d : ℚ) (better : Highlight → Highlight → Bool) :
    ∀ (f : ℕ) (l : List Highlight) (x : Highlight),
      x ∈ mergeClose d better f l → x ∈ l := by
  intro f
  induction f with
  | zero =>
    intro l x hx
    simp only [mergeClose] at hx
    exact hx
  | succ f ih =>
    intro l x hx
    match l with
    | [] => simp [mergeClose] at hx
    | [h] => simpa [mergeClose] using hx
    | h1 :: h2 :: rest =>
      simp only [mergeClose] at hx
      by_cases hlt : h2.timestamp - h1.timestamp < d
      · rw [if_pos hlt] at hx
        have := ih _ x hx
        rcases List.mem_cons.mp this with rfl | h3
        · by_cases hb : better h1 h2
          · rw [if_pos hb]
            exact List.mem_cons_of_mem h1 (List.mem_cons_self h2 rest)
          · rw [if_neg hb]
            exact List.mem_cons_self h1 (h2 :: rest)
        · exact List.mem_cons_of_mem h1 (List.mem_cons_of_mem h2 h3)
      · rw [if_neg hlt] at hx
        rcases List.mem_cons.mp hx with rfl | h3
        · exact List.mem_cons_self x (h2 :: rest)
        · exact List.mem_cons_of_mem h1 (ih _ x h3)

theorem mergeClose_chain (d : ℚ) (better : Highlight → Highlight → Bool) :
    ∀ (f : ℕ) (l : List Highlight), l.length ≤ f →
      l.Pairwise (fun a b => a.timestamp < b.timestamp) →
      (mergeClose d better f l).Chain'
        (fun a b => a.timestamp + d ≤ b.timestamp) := by
  intro f
  induction f with
  | zero =>
    intro l hf _
    have : l = [] := List.eq_nil_of_length_eq_zero (by omega)
    subst this
    simp [mergeClose]
  | succ f ih =>
    intro l hf hsort
    match l with
    | [] => simp [mergeClose]
    | [h] => simp [mergeClose]
    | h1 :: h2 :: rest =>
      simp only [List.length_cons] at hf
      simp only [mergeClose]
      by_cases hlt : h2.timestamp - h1.timestamp < d
      · rw [if_pos hlt]
        apply ih
        · simp only [List.length_cons]
          omega
        · have h12 := List.rel_of_pairwise_cons hsort (List.mem_cons_self h2 rest)
          have h1r : ∀ x ∈ rest, h1.timestamp < x.timestamp := fun x hx =>
            List.rel_of_pairwise_cons hsort (List.mem_cons_of_mem h2 hx)
          have h2r : ∀ x ∈ rest, h2.timestamp < x.timestamp := fun x hx =>
            List.rel_of_pairwise_cons hsort.of_cons hx
          refine List.Pairwise.cons ?_ hsort.of_cons.of_cons
          intro x hx
          by_cases hb : better h1 h2
          · rw [if_pos hb]; exact h2r x hx
          · rw [if_neg hb]; exact h1r x hx
      · rw [if_neg hlt]
        rw [List.chain'_cons']
        constructor
        · intro y hy
          have hymem : y ∈ mergeClose d better f (h2 :: rest) := List.mem_of_mem_head? hy
          have hy2 : y ∈ h2 :: rest := mergeClose_mem d better f _ y hymem
          have h2y : h2.timestamp ≤ y.timestamp := by
            rcases List.mem_cons.mp hy2 with rfl | hy3
            · exact le_refl _
            · exact le_of_lt (List.rel_of_pairwise_cons hsort.of_cons hy3)
          have : h1.timestamp + d ≤ h2.timestamp := by
            push_neg at hlt
            linarith
          linarith
        · exact ih (h2 :: rest) (by simp only [List.length_cons]; omega) hsort.of_cons

theorem mergeByTime_mem :
    ∀ (f : ℕ) (l1 l2 : List Highlight) (x : Highlight),
      x ∈ mergeByTime f l1 l2 → x ∈ l1 ∨ x ∈ l2 := by
  intro f
  induction f with
  | zero =>
    intro l1 l2 x hx
    simpa [mergeByTime] using List.mem_append.mp hx
  | succ f ih =>
    intro l1 l2 x hx
    match l1, l2 with
    | [], l2 => right; simpa [mergeByTime] using hx
    | a :: as, [] => left; simpa [mergeByTime] using hx
    | a :: as, b :: bs =>
      simp only [mergeByTime] at hx
      by_cases hle : a.timestamp ≤ b.timestamp
      · rw [if_pos hle] at hx
        rcases List.mem_cons.mp hx with rfl | h2
        · left; exact List.mem_cons_self x as
        · rcases ih as (b :: bs) x h2 with h3 | h3
          · left; exact List.mem_cons_of_mem a h3
          · right; exact h3
      · rw [if_neg hle] at hx
        rcases List.mem_cons.mp hx with rfl | h2
        · right; exact List.mem_cons_self x bs
        · rcases ih (a :: as) bs x h2 with h3 | h3
          · left; exact h3
          · right; exact List.mem_cons_of_mem b h3

theorem mergeByTime_pairwise :
    ∀ (f : ℕ) (l1 l2 : List Highlight), l1.length + l2.length ≤ f →
      l1.Pairwise (fun a b => a.timestamp < b.timestamp) →
      l2.Pairwise (fun a b => a.timestamp < b.timestamp) →
      (∀ a ∈ l1, ∀ b ∈ l2, a.timestamp ≠ b.timestamp) →
      (mergeByTime f l1 l2).Pairwise (fun a b => a.timestamp < b.timestamp) := by
  intro f
  induction f with
  | zero =>
    intro l1 l2 hf h1 h2 hne
    have e1 : l1 = [] := List.eq_nil_of_length_eq_zero (by omega)
    have e2 : l2 = [] := List.eq_nil_of_length_eq_zero (by omega)
    subst e1; subst e2
    simp [mergeByTime]
  | succ f ih =>
    intro l1 l2 hf h1 h2 hne
    match l1, l2 with
    | [], l2 => simpa [mergeByTime] using h2
    | a :: as, [] => simpa [mergeByTime] using h1
    | a :: as, b :: bs =>
      simp only [List.length_cons] at hf
      simp only [mergeByTime]
      by_cases hle : a.timestamp ≤ b.timestamp
      · rw [if_pos hle]
        refine List.Pairwise.cons ?_ ?_
        · intro y hy
          rcases mergeByTime_mem f as (b :: bs) y hy with h3 | h3
          · exact List.rel_of_pairwise_cons h1 h3
          · have hab : a.timestamp < b.timestamp :=
              lt_of_le_of_ne hle (hne a (List.mem_cons_self a as) b (List.mem_cons_self b bs))
            rcases List.mem_cons.mp h3 with rfl | h4
            · exact hab
            · exact lt_trans hab (List.rel_of_pairwise_cons h2 h4)
        · refine ih as (b :: bs) (by simp only [List.length_cons]; omega) h1.of_cons h2 ?_
          intro x hx y hy
          exact hne x (List.mem_cons_of_mem a hx) y hy
      · rw [if_neg hle]
        push_neg at hle
        refine List.Pairwise.cons ?_ ?_
        · intro y hy
          rcases mergeByTime_mem f (a :: as) bs y hy with h3 | h3
          · rcases List.mem_cons.mp h3 with rfl | h4
            · exact hle
            · exact lt_trans hle (List.rel_of_pairwise_cons h1 h4)
          · exact List.rel_of_pairwise_cons h2 h3
        · refine ih (a :: as) bs (by simp only [List.length_cons]; omega) h1 h2.of_cons ?_
          intro x hx y hy
          exact hne x hx y (List.mem_cons_of_mem b hy)

theorem mergeClose_props {d : ℚ} (hd : 0 < d) (bh : Highlight → Highlight → Bool)
    (L : List Highlight)
    (hL : L.Pairwise (fun a b => a.timestamp < b.timestamp)) :
    (mergeClose d bh L.length L).Pairwise (fun a b => a.timestamp < b.timestamp) ∧
    (mergeClose d bh L.length L).Pairwise
      (fun a b => d ≤ |b.timestamp - a.timestamp|) := by
  have hchain := mergeClose_chain d bh L.length L le_rfl hL
  have htr : ∀ a b c : Highlight, a.timestamp + d ≤ b.timestamp →
      b.timestamp + d ≤ c.timestamp → a.timestamp + d ≤ c.timestamp := by
    intro a b c h1 h2
    linarith
  have hpw := chainToPairwise htr _ hchain
  constructor
  · exact hpw.imp (fun h => by linarith)
  · refine hpw.imp (fun h => ?_)
    rw [abs_of_nonneg (by linarith)]
    linarith

theorem peakHighlights_pairwise (cfg : DetectorConfig) (buckets : List Bucket)
    (hmono : buckets.Pairwise (fun a b => a.startTime < b.startTime)) :
    (peakHighlights cfg buckets).Pairwise (fun a b => a.timestamp < b.timestamp) :=
  List.Pairwise.map _ (fun _ _ hab => hab)
    (runReduce_pairwise buckets none (by simpa using hmono))

theorem valleyHighlights_pairwise (cfg : DetectorConfig) (buckets : List Bucket)
    (hmono : buckets.Pairwise (fun a b => a.startTime < b.startTime)) :
    (valleyHighlights cfg buckets).Pairwise (fun a b => a.timestamp < b.timestamp) :=
  List.Pairwise.map _ (fun _ _ hab => hab)
    (runReduce_pairwise buckets none (by simpa using hmono))

theorem mergedPeaks_spec (cfg : DetectorConfig) (buckets : List Bucket) :
    ∀ h ∈ mergedPeaks cfg buckets,
      ∃ b, b ∈ buckets ∧ isPeakBucket cfg b = true ∧ h = mkHighlight .peak b := by
  intro h hh
  have hmem : h ∈ peakHighlights cfg buckets := mergeClose_mem _ _ _ _ h hh
  rcases List.mem_map.mp hmem with ⟨b, hb, rfl⟩
  refine ⟨b, ?_, ?_, rfl⟩
  · have := runReduce_mem buckets none b hb
    simpa using this
  · exact runReduce_qualifies buckets none (fun c hc => by cases hc) b hb

theorem mergedValleys_spec (cfg : DetectorConfig) (buckets : List Bucket) :
    ∀ h ∈ mergedValleys cfg buckets,
      ∃ b, b ∈ buckets ∧ isValleyBucket cfg b = true ∧ h = mkHighlight .valley b := by
  intro h hh
  have hmem : h ∈ valleyHighlights cfg buckets := mergeClose_mem _ _ _ _ h hh
  rcases List.mem_map.mp hmem with ⟨b, hb, rfl⟩
  refine ⟨b, ?_, ?_, rfl⟩
  · have := runReduce_mem buckets none b hb
    simpa using this
  · exact runReduce_qualifies buckets none (fun c hc => by cases hc) b hb

theorem bucket_start_inj {buckets : List Bucket}
    (hmono : buckets.Pairwise (fun a b => a.startTime < b.startTime))
    {b1 b2 : Bucket} (h1 : b1 ∈ buckets) (h2 : b2 ∈ buckets)
    (heq : b1.startTime = b2.startTime) : b1 = b2 := by
  by_contra hne
  have hpw : buckets.Pairwise (fun a b => a.startTime ≠ b.startTime) :=
    hmono.imp (fun h => ne_of_lt h)
  have hsym : Symmetric (fun a b : Bucket => a.startTime ≠ b.startTime) :=
    fun a b h => h.symm
  exact List.Pairwise.forall hsym hpw h1 h2 hne heq

theorem cross_kind_ne (cfg : DetectorConfig) (buckets : List Bucket)
    (hmono : buckets.Pairwise (fun a b => a.startTime < b.startTime)) :
    ∀ a ∈ mergedPeaks cfg buckets, ∀ b ∈ mergedValleys cfg buckets,
      a.timestamp ≠ b.timestamp := by
  intro a ha b hb heq
  obtain ⟨b1, hb1m, hb1p, rfl⟩ := mergedPeaks_spec cfg buckets a ha
  obtain ⟨b2, hb2m, hb2v, rfl⟩ := mergedValleys_spec cfg buckets b hb
  have hst : b1.startTime = b2.startTime := heq
  have hbb : b1 = b2 := bucket_start_inj hmono hb1m hb2m hst
  subst hbb
  rw [isValleyBucket, hb1p] at hb2v
  simp at hb2v

/-- Claim C7 (spec-modelled detector): every Highlight sequence produced by the
detector is strictly ordered by timestamp, and no two distinct Highlights of
the same kind lie closer together than the configured
`minSeparationSeconds` (the spec requires a positive separation and
strictly increasing bucket start times, §3). -/
theorem c7_detector_invariants (cfg : DetectorConfig) (buckets : List Bucket)
    (hsep : 0 < cfg.minSeparationSeconds)
    (hmono : buckets.Pairwise (fun a b => a.startTime < b.startTime)) :
    (detectHighlights cfg buckets).Pairwise (fun a b => a.timestamp < b.timestamp) ∧
    ∀ h1 ∈ detectHighlights cfg buckets, ∀ h2 ∈ detectHighlights cfg buckets,
      h1.kind = h2.kind → h1 ≠ h2 →
      cfg.minSeparationSeconds ≤ |h2.timestamp - h1.timestamp| := by
  obtain ⟨hmpLt, hmpGap⟩ := mergeClose_props hsep betterPeakH (peakHighlights cfg buckets)
    (peakHighlights_pairwise cfg buckets hmono)
  obtain ⟨hmvLt, hmvGap⟩ := mergeClose_props hsep betterValleyH (valleyHighlights cfg buckets)
    (valleyHighlights_pairwise cfg buckets hmono)
  have hne := cross_kind_ne cfg buckets hmono
  have hGsym : Symmetric (fun a b : Highlight =>
      cfg.minSeparationSeconds ≤ |b.timestamp - a.timestamp|) := by
    intro a b h
    rwa [abs_sub_comm]
  constructor
  · exact mergeByTime_pairwise _ _ _ le_rfl hmpLt hmvLt hne
  · intro h1 hh1 h2 hh2 hkind hne12
    rcases mergeByTime_mem _ _ _ _ hh1 with m1 | m1 <;>
      rcases mergeByTime_mem _ _ _ _ hh2 with m2 | m2
    · exact List.Pairwise.forall hGsym hmpGap m1 m2 hne12
    · obtain ⟨b1, _, _, rfl⟩ := mergedPeaks_spec cfg buckets h1 m1
      obtain ⟨b2, _, _, rfl⟩ := mergedValleys_spec cfg buckets h2 m2
      cases hkind
    · obtain ⟨b1, _, _, rfl⟩ := mergedValleys_spec cfg buckets h1 m1
      obtain ⟨b2, _, _, rfl⟩ := mergedPeaks_spec cfg buckets h2 m2
      cases hkind
    · exact List.Pairwise.forall hGsym hmvGap m1 m2 hne12

/-! ### Lemmas about the CSV interchange model (claim C6) -/

theorem fracStr_all_digits (e m : ℕ) : ∀ c ∈ fracStr e m, c.isDigit = true := by
  intro c hc
  rcases List.mem_append.mp hc with hc | hc
  · rw [List.eq_of_mem_replicate hc]
    rfl
  · exact natStr_all_digits m hc

theorem fracStr_length {e m : ℕ} (he : 1 ≤ e) (hm : m < 10 ^ e) :
    (fracStr e m).length = e := by
  have h := natStr_length_le he hm
  simp only [fracStr, List.length_append, List.length_replicate]
  omega

theorem evalDigits_fracStr (e m : ℕ) : evalDigits (fracStr e m) = m := by
  rw [fracStr, evalDigits_replicate_zero, evalDigits_natStr]

theorem fracStr_ne_nil {e m : ℕ} (he : 1 ≤ e) (hm : m < 10 ^ e) :
    fracStr e m ≠ [] := by
  intro h
  have hl := fracStr_length he hm
  rw [h] at hl
  simp at hl
  omega

theorem parseNumNat_render {a b e : ℕ} (he : 1 ≤ e) (hb : b < 10 ^ e) :
    parseNumNat (natStr a ++ '.' :: fracStr e b) =
      some ((a : ℚ) + (b : ℚ) / 10 ^ e) := by
  have hdot : ('.' : Char).isDigit = false := rfl
  have htd : takeDigits (natStr a ++ '.' :: fracStr e b) =
      (natStr a, '.' :: fracStr e b) := by
    rw [takeDigits_all (fun c hc => natStr_all_digits a hc) _, takeDigits_nondigit hdot]
    simp
  have htf : takeDigits (fracStr e b) = (fracStr e b, []) := by
    have := takeDigits_all (fracStr_all_digits e b) []
    simpa [takeDigits] using this
  simp only [parseNumNat, htd]
  rw [if_neg (natStr_ne_nil a)]
  simp only [htf]
  rw [if_neg (by simp [fracStr_ne_nil he hb])]
  rw [evalDigits_natStr, evalDigits_fracStr, fracStr_length he hb]

theorem parseNum_neg_cons (r : List Char) :
    parseNum ('-' :: r) = (parseNumNat r).map (fun x => -x) := by
  simp [parseNum]

theorem parseNum_digit_cons {d : Char} (hd : d.isDigit = true) (r : List Char) :
    parseNum (d :: r) = parseNumNat (d :: r) := by
  have hne : d ≠ '-' := isDigit_ne hd (show ('-' : Char).isDigit = false from rfl)
  simp [parseNum, hne]

theorem parseNum_decString {q : ℚ} (hq : FiniteDec q) :
    parseNum (decString q) = some q := by
  have hden : 0 < q.den := q.pos
  have he : 1 ≤ q.den := hden
  have hpow : (0:ℕ) < 10 ^ q.den := pow_pos (by norm_num) _
  have hmod : q.num.natAbs * 10 ^ q.den / q.den % 10 ^ q.den < 10 ^ q.den :=
    Nat.mod_lt _ hpow
  have hdvd : q.den ∣ q.num.natAbs * 10 ^ q.den := hq.mul_left _
  have hdenQ : ((q.den : ℚ)) ≠ 0 := by exact_mod_cast hden.ne'
  have h10Q : ((10 : ℚ) ^ q.den) ≠ 0 := by positivity
  have hcast : ((q.num.natAbs * 10 ^ q.den / q.den : ℕ) : ℚ) =
      (q.num.natAbs : ℚ) * 10 ^ q.den / q.den := by
    rw [Nat.cast_div hdvd hdenQ]
    push_cast
    ring
  have hval : ((q.num.natAbs * 10 ^ q.den / q.den / 10 ^ q.den : ℕ) : ℚ) +
      ((q.num.natAbs * 10 ^ q.den / q.den % 10 ^ q.den : ℕ) : ℚ) / 10 ^ q.den =
      (q.num.natAbs : ℚ) / q.den := by
    have hsplit := Nat.div_add_mod (q.num.natAbs * 10 ^ q.den / q.den) (10 ^ q.den)
    have hsplitQ : (10 : ℚ) ^ q.den *
        ((q.num.natAbs * 10 ^ q.den / q.den / 10 ^ q.den : ℕ) : ℚ) +
        ((q.num.natAbs * 10 ^ q.den / q.den % 10 ^ q.den : ℕ) : ℚ) =
        ((q.num.natAbs * 10 ^ q.den / q.den : ℕ) : ℚ) := by
      exact_mod_cast congrArg (fun n : ℕ => (n : ℚ)) hsplit
    rw [hcast, eq_div_iff hdenQ] at hsplitQ
    field_simp
    linear_combination hsplitQ
  have hrender := parseNumNat_render (a := q.num.natAbs * 10 ^ q.den / q.den / 10 ^ q.den)
    (b := q.num.natAbs * 10 ^ q.den / q.den % 10 ^ q.den) he hmod
  by_cases hneg : q.num < 0
  · have habs : ((q.num.natAbs : ℕ) : ℚ) = -(q.num : ℚ) := by
      rw [show ((q.num.natAbs : ℕ) : ℚ) = ((|q.num| : ℤ) : ℚ) from Int.cast_natAbs,
        abs_of_neg hneg]
      push_cast
      ring
    simp only [decString, if_pos hneg, List.singleton_append, List.cons_append,
      List.nil_append]
    rw [parseNum_neg_cons, hrender]
    simp only [Option.map]
    congr 1
    rw [hval, habs, neg_div, neg_neg, Rat.num_div_den]
  · have habs : ((q.num.natAbs : ℕ) : ℚ) = (q.num : ℚ) := by
      rw [show ((q.num.natAbs : ℕ) : ℚ) = ((|q.num| : ℤ) : ℚ) from Int.cast_natAbs,
        abs_of_nonneg (show (0 : ℤ) ≤ q.num from by omega)]
    obtain ⟨d, tl, hd⟩ := List.exists_cons_of_ne_nil
      (natStr_ne_nil (q.num.natAbs * 10 ^ q.den / q.den / 10 ^ q.den))
    have hddig : d.isDigit = true :=
      natStr_all_digits _ (hd ▸ List.mem_cons_self d tl)
    simp only [decString, if_neg hneg, List.nil_append]
    rw [hd, List.cons_append, parseNum_digit_cons hddig, ← List.cons_append, ← hd, hrender]
    congr 1
    rw [hval, habs, Rat.num_div_den]

theorem parseKind_kindStr (k : HKind) : parseKind (kindStr k) = some k := by
  cases k <;> decide

theorem decString_no_sep {q : ℚ} {c : Char} (hc : c ∈ decString q) :
    c ≠ ',' ∧ c ≠ '\n' := by
  have hdig : ∀ d : Char, d.isDigit = true → d ≠ ',' ∧ d ≠ '\n' := by
    intro d hd
    exact ⟨isDigit_ne hd (show (',' : Char).isDigit = false from rfl),
      isDigit_ne hd (show ('\n' : Char).isDigit = false from rfl)⟩
  simp only [decString, List.append_assoc, List.mem_append, List.mem_cons] at hc
  rcases hc with hc | hc | hc | hc
  · split at hc
    · rw [List.mem_singleton] at hc
      subst hc
      exact ⟨by decide, by decide⟩
    · cases hc
  · exact hdig c (natStr_all_digits _ hc)
  · subst hc
    exact ⟨by decide, by decide⟩
  · exact hdig c (fracStr_all_digits _ _ c hc)

theorem kindStr_no_sep {k : HKind} {c : Char} (hc : c ∈ kindStr k) :
    c ≠ ',' ∧ c ≠ '\n' := by
  cases k <;> simp only [kindStr, List.mem_cons, List.not_mem_nil, or_false] at hc <;>
    rcases hc with rfl | rfl | rfl | rfl | rfl | rfl <;> exact ⟨by decide, by decide⟩

theorem hhmmss_no_sep {q : ℚ} {c : Char} (hc : c ∈ hhmmss q) :
    c ≠ ',' ∧ c ≠ '\n' := by
  have hdig : ∀ d : Char, d.isDigit = true → d ≠ ',' ∧ d ≠ '\n' := by
    intro d hd
    exact ⟨isDigit_ne hd (show (',' : Char).isDigit = false from rfl),
      isDigit_ne hd (show ('\n' : Char).isDigit = false from rfl)⟩
  simp only [hhmmss, pad2, List.mem_append, List.mem_cons] at hc
  rcases hc with hc | hc | hc | hc | hc
  · exact hdig c (fracStr_all_digits _ _ c hc)
  · subst hc
    exact ⟨by decide, by decide⟩
  · exact hdig c (fracStr_all_digits _ _ c hc)
  · subst hc
    exact ⟨by decide, by decide⟩
  · exact hdig c (fracStr_all_digits _ _ c hc)

theorem exportRow_cells (h : Highlight) :
    splitChar ',' (exportRow h) =
      [decString h.timestamp, kindStr h.kind, decString h.score, [],
        hhmmss h.timestamp] := by
  apply splitChar_join
  · simp
  · intro cell hcell
    simp only [List.mem_cons] at hcell
    rcases hcell with rfl | rfl | rfl | rfl | hcell
    · intro hmem
      exact (decString_no_sep hmem).1 rfl
    · intro hmem
      exact (kindStr_no_sep hmem).1 rfl
    · intro hmem
      exact (decString_no_sep hmem).1 rfl
    · intro hmem
      cases hmem
    · rcases hcell with rfl | hcell
      · intro hmem
        exact (hhmmss_no_sep hmem).1 rfl
      · cases hcell

theorem exportRow_no_newline (h : Highlight) : '\n' ∉ exportRow h := by
  intro hmem
  rcases mem_joinChar hmem with hsep | ⟨cell, hcell, hc⟩
  · cases hsep
  · simp only [List.mem_cons] at hcell
    rcases hcell with rfl | rfl | rfl | rfl | hcell
    · exact (decString_no_sep hc).2 rfl
    · exact (kindStr_no_sep hc).2 rfl
    · exact (decString_no_sep hc).2 rfl
    · cases hc
    · rcases hcell with rfl | hcell
      · exact (hhmmss_no_sep hc).2 rfl
      · cases hcell

theorem parseRow_exportRow {h : Highlight} (hft : FiniteDec h.timestamp)
    (hfs : FiniteDec h.score) : parseRow (exportRow h) = some h := by
  simp [parseRow, exportRow_cells h, parseNum_decString hft, parseNum_decString hfs,
    parseKind_kindStr]

theorem filterMap_parseRow_exportRow : ∀ (H : List Highlight),
    (∀ h ∈ H, FiniteDec h.timestamp ∧ FiniteDec h.score) →
    (H.map exportRow).filterMap parseRow = H := by
  intro H
  induction H with
  | nil => intro _; rfl
  | cons h t ih =>
    intro hfin
    have hh := hfin h (List.mem_cons_self h t)
    simp only [List.map_cons, List.filterMap_cons, parseRow_exportRow hh.1 hh.2]
    rw [ih (fun x hx => hfin x (List.mem_cons_of_mem h hx))]

/-- Claim C6 (amended, spec-modelled round trip): for every nonempty Highlight
sequence whose timestamps and scores have finite decimal expansions (as every
binary floating-point value does), importing the export reproduces the
sequence exactly — timestamps, kinds and scores all equal — with zero
recoverable errors.  (The empty sequence instead yields `EmptyImport`, as
required by the contract of the importing side; see the counterexample.) -/
theorem c6_roundtrip (H : List Highlight) (hne : H ≠ [])
    (hfin : ∀ h ∈ H, FiniteDec h.timestamp ∧ FiniteDec h.score) :
    csvImport (exportCSV H) = .ok (H, 0) := by
  have hrows : splitChar '\n' (exportCSV H) = H.map exportRow := by
    apply splitChar_join
    · simpa using hne
    · intro row hrow
      rcases List.mem_map.mp hrow with ⟨h, _, rfl⟩
      exact exportRow_no_newline h
  simp only [csvImport, hrows, filterMap_parseRow_exportRow H hfin]
  rw [if_neg hne]
  simp

end ChatHype

namespace ChatHype

section

attribute [local semireducible] Rat.mul Rat.add Rat.inv Rat.sub

/-- Claim C1 (code bug, concrete evaluation): the script reads the first line
into `header` unconditionally before the loop, and reads a second line into
`header` when the first contains "Start Time"; both lines are discarded.  So a
headerless file whose single row is valid produces no marker even though the
row itself qualifies, and with a header present the first data row is likewise
lost — contradicting the claim that exactly the optional header row is
skipped. -/
theorem c1_header_skip_bug :
    premierProcessLine ("a,b,c,d,00:01:35" : String).data = some (.num 95) ∧
    premierImport [("a,b,c,d,00:01:35" : String).data] = [] ∧
    premierImport [("Start Time,Col2,Col3,Col4,Col5" : String).data,
      ("a,b,c,d,00:01:35" : String).data, ("e,f,g,h,00:02:10" : String).data] =
      [.num 130] := by
  refine ⟨by decide, by decide, by decide⟩

/-- Claim C3 counterexample: inputs whose every row fails to parse yield zero
valid rows, yet both scripts return an empty marker list together with their
success alert — no `EmptyImport` failure and no error count is ever
produced. -/
theorem c3_no_empty_import_counterexample :
    aeRun [("not a number" : String).data] =
      ([], ("Markers added to the composition." : String).data) ∧
    premierRun [("one,two" : String).data, ("bad,row" : String).data] =
      ([], ("Markers added to the sequence." : String).data) := by
  refine ⟨by decide, by decide⟩

/-- Witness for `c3_skipped_but_uncounted` at concrete inputs. -/
theorem c3_skipped_but_uncounted_witness :
    (aeRun [("x" : String).data]).2 = ("Markers added to the composition." : String).data ∧
    aeImport [("x" : String).data, ("5" : String).data] = aeImport [("5" : String).data] ∧
    premierLoop [] [("a,b" : String).data, ("a,b,c,d,00:01:35" : String).data] =
      premierLoop [] [("a,b,c,d,00:01:35" : String).data] :=
  ⟨(c3_skipped_but_uncounted [("x" : String).data]).1,
    (c3_skipped_but_uncounted []).2.2.1 _ _ (by decide),
    (c3_skipped_but_uncounted []).2.2.2 _ _ _ (by decide)⟩

/-- Witness for `c4_unrecognized_columns_ignored` at concrete inputs:
row `a,b,c,d,00:01:35` with appended column `note`, and simple-format line
`95.5` with appended columns `peak`. -/
theorem c4_witness :
    (∀ r2, premierProcessLine r2 =
      fifthColumnMarker ((splitChar ',' (trimChars r2)).get? 4)) ∧
    premierProcessLine (("a,b,c,d,00:01:35" : String).data ++ ',' :: ("note" : String).data) =
      premierProcessLine ("a,b,c,d,00:01:35" : String).data ∧
    aeProcessLine (("95.5" : String).data ++ ',' :: ("peak" : String).data) =
      aeProcessLine ("95.5" : String).data ∧
    aeProcessLine ("95.5" : String).data = some (.num (if ([] : List Char) = ['-']
      then -((evalDigits ['9', '5'] : ℚ) + (evalDigits ['5'] : ℚ) / 10 ^ (['5'] : List Char).length)
      else (evalDigits ['9', '5'] : ℚ) + (evalDigits ['5'] : ℚ) / 10 ^ (['5'] : List Char).length)) :=
  c4_unrecognized_columns_ignored ("a,b,c,d,00:01:35" : String).data ("note" : String).data
    ("95.5" : String).data ("peak" : String).data [] ['9', '5'] ['5']
    (by decide) (by decide) (by decide) (Or.inl rfl) (by decide) (by decide) (by decide)
    (Or.inr (by decide)) (by decide)

/-- Witness for `c5_fifth_column_hhmmss`: `01:02:03` gives `3723` seconds. -/
theorem c5_witness :
    premierProcessLine ("a,b,c,d,01:02:03" : String).data =
      some (.num (((evalDigits ['0', '1'] : ℤ) * 3600 + (evalDigits ['0', '2'] : ℤ) * 60 +
        (evalDigits ['0', '3'] : ℤ) : ℤ) : ℚ)) ∧
    premierProcessLine ("a,b,c,d,01:02:03" : String).data = some (.num 3723) :=
  ⟨c5_fifth_column_hhmmss ("a,b,c,d,01:02:03" : String).data ['0', '1'] ['0', '2'] ['0', '3']
    (by decide) (by decide) (by decide) (by decide) (by decide) (by decide)
    (by decide) (by decide),
   by decide⟩

/-- Witness for `c8_short_row_skipped`: a three-column row adds nothing and
the loop result over the remaining rows is unchanged. -/
theorem c8_witness :
    premierProcessLine ("a,b,c" : String).data = none ∧
    premierLoop [] [("a,b,c" : String).data, ("a,b,c,d,00:01:35" : String).data] =
      premierLoop [] [("a,b,c,d,00:01:35" : String).data] :=
  ⟨(c8_short_row_skipped ("a,b,c" : String).data (by decide) (by decide)).1,
    (c8_short_row_skipped ("a,b,c" : String).data (by decide) (by decide)).2 []
      [("a,b,c,d,00:01:35" : String).data]⟩

/-- Witness for `c9_fraction_truncated`: `01:02:03.75` gives `3723` seconds,
with the fraction discarded. -/
theorem c9_witness :
    premierProcessLine ("a,b,c,d,01:02:03.75" : String).data =
      some (.num (((evalDigits ['0', '1'] : ℤ) * 3600 + (evalDigits ['0', '2'] : ℤ) * 60 +
        (evalDigits ['0', '3'] : ℤ) : ℤ) : ℚ)) ∧
    premierProcessLine ("a,b,c,d,01:02:03.75" : String).data = some (.num 3723) :=
  ⟨c9_fraction_truncated ("a,b,c,d,01:02:03.75" : String).data ['0', '1'] ['0', '2'] ['0', '3']
    ['7', '5'] (by decide) (by decide) (by decide) (by decide) (by decide) (by decide)
    (by decide) (by decide) (by decide),
   by decide⟩

/-- Witness for `c10_needs_three_fields`: a plain-seconds fifth column `95`
converts to NaN and adds no marker. -/
theorem c10_witness :
    timestampToSeconds
      ((splitChar ',' (trimChars ("a,b,c,d,95" : String).data)).getD 4 []) = .nan ∧
    premierProcessLine ("a,b,c,d,95" : String).data = none :=
  c10_needs_three_fields ("a,b,c,d,95" : String).data (by decide) (by decide)

/-- Witness for `c7_detector_invariants` on the spec's single-spike-like
scenario: thresholds 20/0, separation 30, four buckets; the two near peaks
merge into one and the two zero-score valleys merge into one. -/
theorem c7_witness :
    (0 : ℚ) < (⟨20, 0, 30⟩ : DetectorConfig).minSeparationSeconds ∧
    ([⟨0, 50⟩, ⟨10, 0⟩, ⟨20, 45⟩, ⟨30, 0⟩] : List Bucket).Pairwise
      (fun a b => a.startTime < b.startTime) ∧
    detectHighlights ⟨20, 0, 30⟩ [⟨0, 50⟩, ⟨10, 0⟩, ⟨20, 45⟩, ⟨30, 0⟩] =
      [⟨0, 50, .peak⟩, ⟨10, 0, .valley⟩] ∧
    (detectHighlights ⟨20, 0, 30⟩ [⟨0, 50⟩, ⟨10, 0⟩, ⟨20, 45⟩, ⟨30, 0⟩]).Pairwise
      (fun a b => a.timestamp < b.timestamp) :=
  ⟨by decide, by decide, by decide,
    (c7_detector_invariants ⟨20, 0, 30⟩ [⟨0, 50⟩, ⟨10, 0⟩, ⟨20, 45⟩, ⟨30, 0⟩]
      (by decide) (by decide)).1⟩

/-- Claim C6 counterexample: the round trip is not universal — for the empty
Highlight sequence, importing the export fails with `EmptyImport` (as the
importing side's contract itself requires when zero valid rows result) instead
of reproducing the empty sequence. -/
theorem c6_empty_counterexample :
    csvImport (exportCSV []) = .error .emptyImport := by decide

/-- Witness for `c6_roundtrip` at a concrete one-element sequence
(timestamp 95.5 = 191/2, score 50, kind peak). -/
theorem c6_witness :
    ([⟨191 / 2, 50, .peak⟩] : List Highlight) ≠ [] ∧
    (∀ h ∈ ([⟨191 / 2, 50, .peak⟩] : List Highlight),
      FiniteDec h.timestamp ∧ FiniteDec h.score) ∧
    csvImport (exportCSV [⟨191 / 2, 50, .peak⟩]) = .ok ([⟨191 / 2, 50, .peak⟩], 0) :=
  ⟨by decide, by decide, c6_roundtrip [⟨191 / 2, 50, .peak⟩] (by decide) (by decide)⟩

end

end ChatHype

